import Mathlib

/-!
Shallow embedding of the similarity-and-clustering engine of the repository
(`src/similarity.js`, the 7-aspect variant concatenated into `src/server.js`,
and the bucket explainer in the route file `src/unnamed/part_000`).

Modelling conventions:
* JavaScript numbers are modelled as real numbers; the distinguished
  non-finite values (`NaN`, `Infinity`, `-Infinity`) that `safeNum` filters
  are modelled by the inductive type `JSNum`.
* A field that may be `undefined`/`null` is modelled as an `Option`.
* Date strings are modelled by their parsed timestamp in milliseconds
  (`Option ℝ`): `none` stands for a missing or unparsable date, so
  `isoToDate` has already been applied to the field.
* Mutable arrays are modelled as `List Nat` with `getD`/`set`; every access
  performed by the code is in range, so the `getD` default is unobservable.
* The bucket explainer works with exact rational arithmetic only, so its
  embedding uses `ℚ` and stays fully executable.
-/

/-- JavaScript numeric values as stored in record fields: either a finite
number or one of the non-finite values rejected by `safeNum`. -/
inductive JSNum where
  | nan : JSNum
  | posInf : JSNum
  | negInf : JSNum
  | fin : ℝ → JSNum

/-- Whether a `JSNum` is a finite number. -/
def JSNum.isFin : JSNum → Prop
  | .fin _ => True
  | _ => False

instance : DecidablePred JSNum.isFin := by
  intro n; cases n <;> simp [JSNum.isFin] <;> infer_instance

/-- `safeNum(n)` from `src/similarity.js`: keeps finite numbers, maps
`undefined`/non-numbers/non-finite values to `null`. -/
def safeNum : Option JSNum → Option ℝ
  | some (.fin x) => some x
  | _ => none

/-- `daysBetween(a, b)` from `src/similarity.js` (timestamps in ms). -/
noncomputable def daysBetween (a b : ℝ) : ℝ :=
  |a - b| / (1000 * 60 * 60 * 24)

/-- The `STOPWORDS` set of `src/similarity.js`. -/
def STOPWORDS : List String :=
  ["the", "a", "an", "of", "and", "to", "in", "on", "at", "de", "la", "el",
   "le", "du", "von", "province", "voivodeship", "state", "county", "region",
   "district", "city", "town"]

/-- `String.prototype.toLowerCase()`, written over the character list so
that it evaluates by kernel reduction. -/
def strLower (s : String) : String :=
  ⟨s.data.map Char.toLower⟩

/-- ECMAScript whitespace for `trim` (the characters relevant here). -/
def isWS (c : Char) : Bool :=
  c = ' ' || c = '\t' || c = '\n' || c = '\r'

/-- `String.prototype.trim()`: strip leading and trailing whitespace,
written over the character list so that it evaluates by kernel reduction. -/
def strTrim (s : String) : String :=
  ⟨((s.data.dropWhile isWS).reverse.dropWhile isWS).reverse⟩

/-- Splitting a string at every separator character (the behavior of
`String.prototype.split` with a character-class regex: consecutive
separators produce empty fragments, which the callers filter out). -/
def strSplit (p : Char → Bool) (s : String) : List String :=
  (s.data.splitOnP p).map fun cs => (⟨cs⟩ : String)

/-- `tokenizeLocation(s)` from `src/similarity.js`: lower-case, replace every
character outside `[a-z0-9, ]` with a space, split on commas/whitespace,
trim, drop empty tokens and stop words. -/
def tokenizeLocation : Option String → List String
  | none => []
  | some s =>
    if s = "" then []
    else
      let cleaned := ⟨(strLower s).data.map fun c =>
        if ('a' ≤ c ∧ c ≤ 'z') ∨ ('0' ≤ c ∧ c ≤ '9') ∨ c = ',' ∨ c = ' '
        then c else ' '⟩
      ((strSplit (fun c => c == ',' || c == ' ') cleaned).map strTrim).filter
        fun t => t != "" && !(STOPWORDS.contains t)

/-- `jaccard(a, b)` from `src/similarity.js` over token sets. -/
noncomputable def jaccard (a b : Finset String) : ℝ :=
  if a.card = 0 ∧ b.card = 0 then 1
  else
    let inter := (a ∩ b).card
    let uni := a.card + b.card - inter
    if uni = 0 then 0 else (inter : ℝ) / (uni : ℝ)

/-- The last comma-separated segment used by `simLocation`: lower-case the
string, split on commas, trim, drop empty segments, take the last one. -/
def lastSeg : Option String → Option String
  | none => none
  | some s => (((strSplit (· == ',') (strLower s)).map strTrim).filter
      (· != "")).getLast?

/-- `simLocation(a, b)` from `src/similarity.js`: token Jaccard plus a
+0.15 bonus (capped at 1) when the last comma-separated segments match. -/
noncomputable def simLocation (a b : Option String) : ℝ :=
  let sa := (tokenizeLocation a).toFinset
  let sb := (tokenizeLocation b).toFinset
  let score := jaccard sa sb
  match lastSeg a, lastSeg b with
  | some x, some y => if x = y then min 1 (score + 0.15) else score
  | _, _ => score

/-- `simDate(a, b, tauDays = 7)` from `src/similarity.js`: exponential decay
in the day difference; 0 when either date is missing/unparsable. -/
noncomputable def simDate (a b : Option ℝ) (tauDays : ℝ := 7) : ℝ :=
  match a, b with
  | some da, some db => Real.exp (-(daysBetween da db) / tauDays)
  | _, _ => 0

/-- The loop accumulation `Σ (a[i] ?? 0) * (b[i] ?? 0)` of `cosine`. -/
noncomputable def dotL (a b : List ℝ) (L : ℕ) : ℝ :=
  ∑ i ∈ Finset.range L, a.getD i 0 * b.getD i 0

/-- `cosine(a, b)` from `src/similarity.js` over number vectors, padding the
shorter vector with zeros. -/
noncomputable def cosine (a b : List ℝ) : ℝ :=
  let L := max a.length b.length
  let dot := dotL a b L
  let na := dotL a a L
  let nb := dotL b b L
  if na = 0 ∧ nb = 0 then 1
  else if na = 0 ∨ nb = 0 then 0
  else dot / (Real.sqrt na * Real.sqrt nb)

/-- The headcount object `{male?, female?, kids?, total?}`. -/
structure Counts where
  male : Option JSNum
  female : Option JSNum
  kids : Option JSNum
  total : Option JSNum

/-- `simCounts(ca, cb)` from `src/similarity.js`: cosine of the 4-vectors
`[male, female, kids, total]`, missing components as 0, missing total derived
as the sum.  The JavaScript `|| 0` applied to the total is the identity on
real numbers and is therefore not written out. -/
noncomputable def simCounts (ca cb : Option Counts) : ℝ :=
  match ca, cb with
  | none, none => 0
  | _, _ =>
    let aMale := (safeNum (ca.bind Counts.male)).getD 0
    let aFemale := (safeNum (ca.bind Counts.female)).getD 0
    let aKids := (safeNum (ca.bind Counts.kids)).getD 0
    let aTotal := (safeNum (ca.bind Counts.total)).getD (aMale + aFemale + aKids)
    let bMale := (safeNum (cb.bind Counts.male)).getD 0
    let bFemale := (safeNum (cb.bind Counts.female)).getD 0
    let bKids := (safeNum (cb.bind Counts.kids)).getD 0
    let bTotal := (safeNum (cb.bind Counts.total)).getD (bMale + bFemale + bKids)
    cosine [aMale, aFemale, aKids, aTotal] [bMale, bFemale, bKids, bTotal]

/-- `simRansom(a, b)` from `src/similarity.js`: `max(0, 1 - |a-b|/max(a,b,1))`,
0 when either amount is missing or non-finite. -/
noncomputable def simRansom (a b : Option JSNum) : ℝ :=
  match safeNum a, safeNum b with
  | some na, some nb =>
    let maxv := max na (max nb 1)
    let diff := |na - nb|
    max 0 (1 - diff / maxv)
  | _, _ => 0

/-- A normalized journal record as consumed by `overallSimilarity` /
`clusterEntries` (`JournalEntry` in `src/similarity.ts`). -/
structure Record where
  id : String
  date : Option ℝ
  location : Option String
  counts : Option Counts
  ransom : Option JSNum

/-- The weight configuration read by `overallSimilarity`; only the four keys
`date`, `location`, `counts`, `ransom` are ever read, unknown keys are
ignored. -/
structure Weights where
  date : Option ℝ
  location : Option ℝ
  counts : Option ℝ
  ransom : Option ℝ

/-- The `add(w, s)` helper of `overallSimilarity`: include the pair only for
a present weight `> 0`.  The score produced by the four aspect functions is
always a real number, so the JavaScript `s == null || isNaN(s)` guard never
fires and is not represented. -/
noncomputable def addPart (w : Option ℝ) (s : ℝ) : List (ℝ × ℝ) :=
  match w with
  | some wv => if 0 < wv then [(wv, s)] else []
  | none => []

/-- `overallSimilarity(a, b, weights)` from `src/similarity.js`: weighted
average of the included aspect scores, 0 when the total weight is 0. -/
noncomputable def overallSimilarity (a b : Record) (w : Weights) : ℝ :=
  let parts :=
    addPart w.date (simDate a.date b.date) ++
    addPart w.location (simLocation a.location b.location) ++
    addPart w.counts (simCounts a.counts b.counts) ++
    addPart w.ransom (simRansom a.ransom b.ransom)
  let W := (parts.map Prod.fst).sum
  if W = 0 then 0 else (parts.map fun p => p.1 * p.2).sum / W

/-- Modelled from the spec: §4.2 says "if the score is undefined (e.g., both
values absent) the aspect is dropped from the sum, not treated as 0".  This
comparison definition drops an aspect when both records lack the attribute
and otherwise scores it with the source's aspect functions; it exists only
to be compared with `overallSimilarity` as translated from the source. -/
noncomputable def overallSimilaritySpecDropped (a b : Record) (w : Weights) : ℝ :=
  let parts :=
    (if a.date.isNone && b.date.isNone then []
     else addPart w.date (simDate a.date b.date)) ++
    (if a.location.isNone && b.location.isNone then []
     else addPart w.location (simLocation a.location b.location)) ++
    (if a.counts.isNone && b.counts.isNone then []
     else addPart w.counts (simCounts a.counts b.counts)) ++
    (if a.ransom.isNone && b.ransom.isNone then []
     else addPart w.ransom (simRansom a.ransom b.ransom))
  let W := (parts.map Prod.fst).sum
  if W = 0 then 0 else (parts.map fun p => p.1 * p.2).sum / W

/-- A possibly-missing numeric field holds only non-negative finite values
(the §3 data-model constraint for headcounts and monetary amounts). -/
def NonnegNum (v : Option JSNum) : Prop :=
  ∀ x : ℝ, v = some (.fin x) → 0 ≤ x

/-- All four headcount components satisfy the non-negativity constraint. -/
def CountsNonneg : Option Counts → Prop
  | none => True
  | some c => NonnegNum c.male ∧ NonnegNum c.female ∧ NonnegNum c.kids ∧
      NonnegNum c.total

/-- A possibly-missing weight is non-negative when present. -/
def NonnegW (v : Option ℝ) : Prop :=
  ∀ x : ℝ, v = some x → 0 ≤ x

/-- A non-negative weight map (§3 `WeightConfig`). -/
def WeightsNonneg (w : Weights) : Prop :=
  NonnegW w.date ∧ NonnegW w.location ∧ NonnegW w.counts ∧ NonnegW w.ransom

/-- At least one aspect weight is present and positive. -/
def HasPositiveWeight (w : Weights) : Prop :=
  (∃ x, w.date = some x ∧ 0 < x) ∨ (∃ x, w.location = some x ∧ 0 < x) ∨
  (∃ x, w.counts = some x ∧ 0 < x) ∨ (∃ x, w.ransom = some x ∧ 0 < x)

/-- The union-find state of `class DSU` in `src/similarity.js`: a parent
array and a size array. -/
structure DSU where
  parent : List Nat
  size : List Nat

/-- The `DSU` constructor: `parent = [0, …, n-1]`, `size = [1, …, 1]`. -/
def DSU.init (n : Nat) : DSU :=
  ⟨List.range n, List.replicate n 1⟩

/-- Array read `parent[x]`.  Every access the code performs is in range, so
the out-of-range default `x` is unobservable. -/
def pget (p : List Nat) (x : Nat) : Nat :=
  p.getD x x

/-- `find(x)` with path compression, fuel-indexed to express the JavaScript
recursion `parent[x] === x ? x : (parent[x] = find(parent[x]))`; the fuel
`parent.length` always suffices because the parent array is a forest. -/
def findAux (p : List Nat) : Nat → Nat → Nat × List Nat
  | 0, x => (x, p)
  | fuel + 1, x =>
    let q := pget p x
    if q = x then (x, p)
    else
      let res := findAux p fuel q
      (res.1, res.2.set x res.1)

/-- `DSU.find`: returns the root of `x` and the compressed state. -/
def DSU.find (st : DSU) (x : Nat) : Nat × DSU :=
  let res := findAux st.parent st.parent.length x
  (res.1, { st with parent := res.2 })

/-- `DSU.union(a, b)` from `src/similarity.js`: find both roots (compressing),
stop if equal, otherwise attach the smaller tree below the larger
(union by size). -/
def DSU.union (st : DSU) (a b : Nat) : DSU :=
  let fa := st.find a
  let fb := fa.2.find b
  let ra := fa.1
  let rb := fb.1
  let st2 := fb.2
  if ra = rb then st2
  else
    let winner := if st2.size.getD ra 0 < st2.size.getD rb 0 then rb else ra
    let loser := if st2.size.getD ra 0 < st2.size.getD rb 0 then ra else rb
    { parent := st2.parent.set loser winner
      size := st2.size.set winner
        (st2.size.getD winner 0 + st2.size.getD loser 0) }

/-- The root of `x` in the parent forest, followed without compression
(specification-side companion of `findAux`; same fuel). -/
def rootAux (p : List Nat) : Nat → Nat → Nat
  | 0, x => x
  | fuel + 1, x =>
    let q := pget p x
    if q = x then x else rootAux p fuel q

/-- Root of `x` with the canonical fuel `parent.length`. -/
def rootOf (p : List Nat) (x : Nat) : Nat :=
  rootAux p p.length x

/-- One parent-chain step of the forest: `x` is not its own parent and `y`
is its parent. -/
def Step (p : List Nat) (x y : Nat) : Prop :=
  pget p x ≠ x ∧ y = pget p x

/-- `y` is an ancestor of `x` along parent links (reflexive-transitive). -/
def Reaches (p : List Nat) : Nat → Nat → Prop :=
  Relation.ReflTransGen (Step p)

/-- `r` is a root of the parent forest. -/
def IsFix (p : List Nat) (r : Nat) : Prop :=
  pget p r = r

/-- `h` is a measure strictly decreasing along parent links: the parent
array is acyclic. -/
def Ranked (p : List Nat) (h : Nat → Nat) : Prop :=
  ∀ x, pget p x ≠ x → h (pget p x) < h x

/-- Well-formedness of a parent array: in-range closure plus acyclicity.
It holds for `DSU.init` and is preserved by `find` and `union`. -/
def WFP (p : List Nat) : Prop :=
  (∀ x, x < p.length → pget p x < p.length) ∧ ∃ h, Ranked p h

/-- A `SimilarityEdge {a, b, score}`. -/
structure Edge where
  a : String
  b : String
  score : ℝ

/-- `+s.toFixed(3)`: rounding to 3 decimals (ties to the larger value, as in
the ECMAScript `toFixed` specification; all scores here are non-negative). -/
noncomputable def round3 (x : ℝ) : ℝ :=
  (round (x * 1000) : ℤ) / 1000

/-- A cluster bucket.  The purely informational aggregate fields of the
source (`dateRange`, `locationTokensTop`, `countsAvg`, `ransomAvg`) are not
referenced by any claim and are omitted; `bucketId` keeps the numeric index
of the `bucket-${idx}` label. -/
structure Bucket where
  bucketId : Nat
  entryIds : List String
  size : Nat
  similarityEdges : List Edge

/-- The upper-triangular pair enumeration of the double loop
`for i … for j = i+1 …`, in loop order. -/
def pairList (n : Nat) : List (Nat × Nat) :=
  (List.range n).flatMap fun i => ((List.range n).drop (i + 1)).map fun j => (i, j)

/-- The record value used for an (unreachable) out-of-range entry access. -/
def dRec : Record :=
  ⟨"", none, none, none, none⟩

/-- `entries[i]`. -/
def entryAt (entries : List Record) (i : Nat) : Record :=
  entries.getD i dRec

/-- A pair qualifies when its overall score reaches the threshold
(`s >= threshold` in the loop body of `clusterEntries`). -/
def qualifies (entries : List Record) (w : Weights) (t : ℝ) (i j : Nat) : Prop :=
  t ≤ overallSimilarity (entryAt entries i) (entryAt entries j) w

noncomputable instance (entries : List Record) (w : Weights) (t : ℝ) (i j : Nat) :
    Decidable (qualifies entries w t i j) :=
  inferInstanceAs (Decidable (t ≤ _))

/-- One iteration of the pairwise loop of `clusterEntries`: score the pair
and, when it qualifies, union the endpoints and append the edge. -/
noncomputable def scanStep (entries : List Record) (w : Weights) (t : ℝ)
    (acc : DSU × List Edge) (ij : Nat × Nat) : DSU × List Edge :=
  if qualifies entries w t ij.1 ij.2 then
    (acc.1.union ij.1 ij.2,
     acc.2 ++ [⟨(entryAt entries ij.1).id, (entryAt entries ij.2).id,
       round3 (overallSimilarity (entryAt entries ij.1) (entryAt entries ij.2) w)⟩])
  else acc

/-- The pairwise scan of `clusterEntries`: score every pair, and when the
score reaches the threshold union the endpoints and record the edge. -/
noncomputable def scanPairs (entries : List Record) (w : Weights) (t : ℝ) :
    DSU × List Edge :=
  (pairList entries.length).foldl (scanStep entries w t)
    (DSU.init entries.length, [])

/-- Insertion into the `groups` map keyed by root; a JavaScript `Map`
iterates in key-insertion order, which an association list preserves. -/
def insertGroup : List (Nat × List Nat) → Nat → Nat → List (Nat × List Nat)
  | [], r, i => [(r, [i])]
  | (k, xs) :: rest, r, i =>
    if k = r then (k, xs ++ [i]) :: rest
    else (k, xs) :: insertGroup rest r i

/-- One iteration of the grouping loop: `groups.get(dsu.find(i)).push(i)`. -/
def groupStep (acc : DSU × List (Nat × List Nat)) (i : Nat) :
    DSU × List (Nat × List Nat) :=
  let f := acc.1.find i
  (f.2, insertGroup acc.2 f.1 i)

/-- The grouping loop of `clusterEntries`: `for i … groups.get(find(i)).push(i)`,
threading the union-find state through the compressing finds. -/
def buildGroups (st : DSU) (n : Nat) : DSU × List (Nat × List Nat) :=
  (List.range n).foldl groupStep (st, [])

/-- One bucket of `clusterEntries` built from the group at position `idx`
(0-based; the source labels it `bucket-${idx+1}`). -/
def mkBucket (entries : List Record) (edges : List Edge) (idx : Nat)
    (arr : List Nat) : Bucket :=
  let ids := arr.map fun i => (entryAt entries i).id
  { bucketId := idx + 1
    entryIds := ids
    size := ids.length
    similarityEdges := edges.filter fun e => ids.contains e.a && ids.contains e.b }

/-- The `{buckets, pairwise}` result object of `clusterEntries`. -/
structure ClusterResult where
  buckets : List Bucket
  pairwise : List Edge

/-- `clusterEntries(entries, weights, threshold = 0.7)` from
`src/similarity.js`: pairwise scan, union-find grouping, one bucket per
group, buckets sorted by descending size (JavaScript `sort` is stable). -/
noncomputable def clusterEntries (entries : List Record) (w : Weights)
    (t : ℝ := 0.7) : ClusterResult :=
  let se := scanPairs entries w t
  let edges := se.2
  let groups := (buildGroups se.1 entries.length).2
  let buckets := groups.enum.map fun p => mkBucket entries edges p.1 p.2.2
  { buckets := buckets.mergeSort fun A B => decide (B.size ≤ A.size)
    pairwise := edges }

/-- `arrEqual(a, b)` from the 7-aspect similarity module concatenated into
`src/server.js`: sort copies of both arrays and compare them pointwise. -/
def arrEqual (a b : List String) : Bool :=
  let A := a.mergeSort fun x y => !decide (y < x)
  let B := b.mergeSort fun x y => !decide (y < x)
  A == B

/-- `simEventEqual(a, b)` from the 7-aspect similarity module in
`src/server.js`: 1 when the two event-type lists are equal as sorted lists,
else 0. -/
def simEventEqual (a b : List String) : ℝ :=
  if arrEqual a b then 1 else 0

/-- The value normalization `String(x).trim().toLowerCase()` used throughout
the route layer for set values. -/
def normVal (s : String) : String :=
  strLower (strTrim s)

/- ------------------------------------------------------------------
Bucket explainer (route file `src/unnamed/part_000`).  It works on the
normalized `entryById` entries; all of its arithmetic is exact, so the
embedding uses `ℚ` and stays executable. -/

/-- Normalized headcount object produced by `extractCounts`. -/
structure NCounts where
  male : Option ℚ
  female : Option ℚ
  kids : Option ℚ
  total : Option ℚ

/-- A normalized entry as stored in `entryById` by the route in
`src/unnamed/part_000`; `date` is the epoch-millisecond value of the
normalized `yyyy-mm-dd` date string. -/
structure NEntry where
  date : Option ℤ
  location : Option String
  ransom : Option ℚ
  counts : NCounts
  eventTypes : List String
  transport : Option String
  conditions : List String

/-- Default entry for (unreachable) head access on an empty list. -/
def dNEntry : NEntry :=
  ⟨none, none, none, ⟨none, none, none, none⟩, [], none, []⟩

/-- The date consensus rule: the explainer produces a `dateAspect` with
`similar: true` iff the bucket is non-empty, every member has a date, and
the span `(max − min)/86400000` days is at most 2 (the `spanDays === 0`
branch also reports similar). -/
def dateShared (entries : List NEntry) : Bool :=
  !entries.isEmpty && entries.all (fun e => e.date.isSome) &&
    (let times := entries.filterMap NEntry.date
     let mn := times.foldl min (times.headD 0)
     let mx := times.foldl max (times.headD 0)
     decide (((mx - mn : ℤ) : ℚ) / 86400000 ≤ 2))

/-- JavaScript truthiness of a location value (`null`/`""` are falsy). -/
def locTruthy : Option String → Bool
  | none => false
  | some s => s != ""

/-- The location consensus rule: every member's location strictly equal to
the first member's, and the first member's location truthy. -/
def locShared (entries : List NEntry) : Bool :=
  !entries.isEmpty &&
    entries.all (fun e => e.location == (entries.headD dNEntry).location) &&
    locTruthy (entries.headD dNEntry).location

/-- The per-sub-field headcount consensus rule: the sub-field is recorded in
`countsSimilar` iff every member has the sub-field and `max − min ≤ tol`
(`tol` is 1 for `male`/`female`/`kids` and 3 for `total`).  With no members
the JavaScript `Math.max() - Math.min() = -∞ ≤ tol` also reports similar,
matched here by the 0 defaults. -/
def subShared (entries : List NEntry) (get : NCounts → Option ℚ) (tol : ℚ) : Bool :=
  let vals := entries.filterMap fun e => get e.counts
  vals.length == entries.length &&
    decide (vals.foldl max (vals.headD 0) - vals.foldl min (vals.headD 0) ≤ tol)

/-- The ransom consensus rule: every member has an amount and every amount's
relative deviation `|v − mean| / mean` is at most 10%.  When the mean is 0
the JavaScript comparison is against `NaN`/`Infinity` and fails; with no
members it vacuously succeeds. -/
def ransomShared (entries : List NEntry) : Bool :=
  let vals := entries.filterMap NEntry.ransom
  vals.length == entries.length &&
    (vals.isEmpty ||
      (let mean := vals.sum / (vals.length : ℚ)
       !(mean == 0) && vals.all fun v => decide (|v - mean| / mean ≤ 1 / 10)))

/-- The `norm` key of the event-type consensus rule: normalize each value,
sort, join with `"|"`. -/
def normSetKey (v : List String) : String :=
  String.intercalate "|"
    ((v.map normVal).mergeSort fun x y => !decide (y < x))

/-- The event-type consensus rule: the first member's key is non-empty and
every member has the same key. -/
def eventShared (entries : List NEntry) : Bool :=
  !entries.isEmpty &&
    (let baseN := normSetKey (entries.headD dNEntry).eventTypes
     baseN != "" && entries.all fun e => normSetKey e.eventTypes == baseN)

/-- The transport consensus rule: the first member's trimmed transport is
non-empty and every member's trimmed, lower-cased transport equals its
lower-casing. -/
def transportShared (entries : List NEntry) : Bool :=
  !entries.isEmpty &&
    (let base := strTrim ((entries.headD dNEntry).transport.getD "")
     base != "" && entries.all fun e =>
       strLower (strTrim (e.transport.getD "")) == strLower base)

/-- The sorted normalized condition list whose `JSON.stringify` image the
source compares. -/
def normCondList (v : List String) : List String :=
  (v.map normVal).mergeSort fun x y => !decide (y < x)

/-- The conditions consensus rule: every member's normalized condition list
equals the first member's, and the first member's list is non-empty. -/
def conditionsShared (entries : List NEntry) : Bool :=
  !entries.isEmpty &&
    entries.all (fun e =>
      normCondList e.conditions == normCondList (entries.headD dNEntry).conditions) &&
    !(entries.headD dNEntry).conditions.isEmpty

/-! ## Verification -/

theorem dotL_comm (a b : List ℝ) (L : ℕ) : dotL a b L = dotL b a L :=
  Finset.sum_congr rfl fun _ _ => mul_comm _ _

theorem cosine_comm (a b : List ℝ) : cosine a b = cosine b a := by
  unfold cosine
  dsimp only
  rw [max_comm, dotL_comm a b]
  exact if_congr and_comm rfl (if_congr or_comm rfl (by rw [mul_comm]))

theorem simRansom_comm (a b : Option JSNum) : simRansom a b = simRansom b a := by
  unfold simRansom
  cases safeNum a <;> cases safeNum b <;> simp
  rename_i na nb
  rw [abs_sub_comm]
  have h : max nb (max na 1) = max na (max nb 1) := max_left_comm _ _ _
  rw [h]

theorem simCounts_comm (ca cb : Option Counts) : simCounts ca cb = simCounts cb ca := by
  unfold simCounts
  cases ca <;> cases cb <;> simp only [] <;> first
    | rfl
    | exact cosine_comm _ _

theorem jaccard_comm (a b : Finset String) : jaccard a b = jaccard b a := by
  unfold jaccard
  dsimp only
  rw [Finset.inter_comm, Nat.add_comm]
  exact if_congr and_comm rfl rfl

theorem simLocation_comm (a b : Option String) : simLocation a b = simLocation b a := by
  unfold simLocation
  dsimp only
  rw [jaccard_comm]
  cases lastSeg a <;> cases lastSeg b <;> simp only []
  rename_i x y
  by_cases h : x = y
  · simp [h]
  · rw [if_neg h, if_neg (fun hyx => h (Eq.symm hyx))]

theorem simDate_comm (a b : Option ℝ) (t : ℝ) : simDate a b t = simDate b a t := by
  cases a <;> cases b <;> simp [simDate, daysBetween, abs_sub_comm]

theorem overallSimilarity_comm (a b : Record) (w : Weights) :
    overallSimilarity a b w = overallSimilarity b a w := by
  unfold overallSimilarity
  rw [simDate_comm, simLocation_comm, simCounts_comm, simRansom_comm]

theorem dotL_self_nonneg (a : List ℝ) (L : ℕ) : 0 ≤ dotL a a L :=
  Finset.sum_nonneg fun _ _ => mul_self_nonneg _

theorem dotL_sq_le (a b : List ℝ) (L : ℕ) :
    (dotL a b L) ^ 2 ≤ dotL a a L * dotL b b L := by
  have h := Finset.sum_mul_sq_le_sq_mul_sq (Finset.range L)
    (fun i => a.getD i 0) (fun i => b.getD i 0)
  simpa [dotL, sq, mul_assoc] using h

theorem cosine_le_one (a b : List ℝ) : cosine a b ≤ 1 := by
  unfold cosine
  dsimp only
  set L := max a.length b.length with hL
  by_cases h1 : dotL a a L = 0 ∧ dotL b b L = 0
  · simp [h1]
  · rw [if_neg h1]
    by_cases h2 : dotL a a L = 0 ∨ dotL b b L = 0
    · simp [h2]
    · rw [if_neg h2]
      push_neg at h2
      have hna : 0 < dotL a a L := lt_of_le_of_ne (dotL_self_nonneg a L) (Ne.symm h2.1)
      have hnb : 0 < dotL b b L := lt_of_le_of_ne (dotL_self_nonneg b L) (Ne.symm h2.2)
      have hden : 0 < Real.sqrt (dotL a a L) * Real.sqrt (dotL b b L) :=
        mul_pos (Real.sqrt_pos.mpr hna) (Real.sqrt_pos.mpr hnb)
      rw [div_le_one hden]
      calc dotL a b L ≤ |dotL a b L| := le_abs_self _
        _ = Real.sqrt ((dotL a b L) ^ 2) := (Real.sqrt_sq_eq_abs _).symm
        _ ≤ Real.sqrt (dotL a a L * dotL b b L) :=
            Real.sqrt_le_sqrt (dotL_sq_le a b L)
        _ = Real.sqrt (dotL a a L) * Real.sqrt (dotL b b L) :=
            Real.sqrt_mul (le_of_lt hna) _

theorem cosine_nonneg (a b : List ℝ) (ha : ∀ x ∈ a, 0 ≤ x) (hb : ∀ x ∈ b, 0 ≤ x) :
    0 ≤ cosine a b := by
  have hga : ∀ i, 0 ≤ a.getD i 0 := by
    intro i
    rcases Nat.lt_or_ge i a.length with h | h
    · rw [List.getD_eq_getElem _ _ h]; exact ha _ (List.getElem_mem h)
    · rw [List.getD_eq_default _ _ h]
  have hgb : ∀ i, 0 ≤ b.getD i 0 := by
    intro i
    rcases Nat.lt_or_ge i b.length with h | h
    · rw [List.getD_eq_getElem _ _ h]; exact hb _ (List.getElem_mem h)
    · rw [List.getD_eq_default _ _ h]
  unfold cosine
  dsimp only
  set L := max a.length b.length
  by_cases h1 : dotL a a L = 0 ∧ dotL b b L = 0
  · simp [h1]
  · rw [if_neg h1]
    by_cases h2 : dotL a a L = 0 ∨ dotL b b L = 0
    · simp [h2]
    · rw [if_neg h2]
      apply div_nonneg
      · exact Finset.sum_nonneg fun i _ => mul_nonneg (hga i) (hgb i)
      · exact mul_nonneg (Real.sqrt_nonneg _) (Real.sqrt_nonneg _)

theorem jaccard_mem (a b : Finset String) : 0 ≤ jaccard a b ∧ jaccard a b ≤ 1 := by
  unfold jaccard
  dsimp only
  by_cases h1 : a.card = 0 ∧ b.card = 0
  · simp [h1]
  · rw [if_neg h1]
    by_cases h2 : a.card + b.card - (a ∩ b).card = 0
    · simp [h2]
    · rw [if_neg h2]
      have hle : (a ∩ b).card ≤ a.card + b.card - (a ∩ b).card := by
        have h3 : (a ∩ b).card ≤ a.card := Finset.card_le_card Finset.inter_subset_left
        have h4 : (a ∩ b).card ≤ b.card := Finset.card_le_card Finset.inter_subset_right
        omega
      constructor
      · positivity
      · rw [div_le_one (by positivity)]
        exact_mod_cast hle

theorem simLocation_mem (a b : Option String) :
    0 ≤ simLocation a b ∧ simLocation a b ≤ 1 := by
  unfold simLocation
  dsimp only
  obtain ⟨hj0, hj1⟩ := jaccard_mem (tokenizeLocation a).toFinset (tokenizeLocation b).toFinset
  cases lastSeg a <;> cases lastSeg b <;> simp only []
  · exact ⟨hj0, hj1⟩
  · exact ⟨hj0, hj1⟩
  · exact ⟨hj0, hj1⟩
  · rename_i x y
    by_cases h : x = y
    · rw [if_pos h]
      refine ⟨le_min (by norm_num) (by linarith), min_le_left _ _⟩
    · rw [if_neg h]; exact ⟨hj0, hj1⟩

theorem simDate_mem (a b : Option ℝ) (τ : ℝ) (hτ : 0 < τ) :
    0 ≤ simDate a b τ ∧ simDate a b τ ≤ 1 := by
  cases a <;> cases b <;> simp [simDate]
  rename_i da db
  constructor
  · exact le_of_lt (Real.exp_pos _)
  · have hd : 0 ≤ daysBetween da db := by
      unfold daysBetween; positivity
    rw [neg_div]
    simp only [Left.neg_nonpos_iff]
    positivity

theorem simRansom_mem (a b : Option JSNum) :
    0 ≤ simRansom a b ∧ simRansom a b ≤ 1 := by
  unfold simRansom
  cases safeNum a <;> cases safeNum b <;> simp
  rename_i na nb
  have hmax : (1 : ℝ) ≤ max na (max nb 1) := le_max_of_le_right (le_max_right _ _)
  exact div_nonneg (abs_nonneg _) (by linarith)

theorem safeNum_getD_nonneg (v : Option JSNum) (h : NonnegNum v) (d : ℝ) (hd : 0 ≤ d) :
    0 ≤ (safeNum v).getD d := by
  match v with
  | none => simpa [safeNum]
  | some .nan => simpa [safeNum]
  | some .posInf => simpa [safeNum]
  | some .negInf => simpa [safeNum]
  | some (.fin x) => simpa [safeNum] using h x rfl

theorem simCounts_mem (ca cb : Option Counts) (ha : CountsNonneg ca) (hb : CountsNonneg cb) :
    0 ≤ simCounts ca cb ∧ simCounts ca cb ≤ 1 := by
  have comp : ∀ (c : Option Counts), CountsNonneg c →
      ∀ x ∈ [(safeNum (c.bind Counts.male)).getD 0,
             (safeNum (c.bind Counts.female)).getD 0,
             (safeNum (c.bind Counts.kids)).getD 0,
             (safeNum (c.bind Counts.total)).getD
               ((safeNum (c.bind Counts.male)).getD 0 +
                (safeNum (c.bind Counts.female)).getD 0 +
                (safeNum (c.bind Counts.kids)).getD 0)], 0 ≤ x := by
    intro c hc
    match c with
    | none =>
      intro x hx
      simp [safeNum] at hx
      simp [hx]
    | some cc =>
      obtain ⟨h1, h2, h3, h4⟩ := hc
      have e1 := safeNum_getD_nonneg cc.male h1 0 le_rfl
      have e2 := safeNum_getD_nonneg cc.female h2 0 le_rfl
      have e3 := safeNum_getD_nonneg cc.kids h3 0 le_rfl
      have e4 := safeNum_getD_nonneg cc.total h4
        ((safeNum cc.male).getD 0 + (safeNum cc.female).getD 0 +
         (safeNum cc.kids).getD 0) (by positivity)
      intro x hx
      simp only [Option.bind_some, List.mem_cons, List.mem_singleton] at hx ⊢
      rcases hx with rfl | rfl | rfl | rfl | h
      · exact e1
      · exact e2
      · exact e3
      · exact e4
      · cases h
  unfold simCounts
  match ca, cb with
  | none, none => norm_num
  | some ca', cb =>
    exact ⟨cosine_nonneg _ _ (comp (some ca') ha) (comp cb hb),
           cosine_le_one _ _⟩
  | none, some cb' =>
    exact ⟨cosine_nonneg _ _ (comp none ha) (comp (some cb') hb),
           cosine_le_one _ _⟩

theorem mem_addPart {w : Option ℝ} {s : ℝ} {p : ℝ × ℝ} (hp : p ∈ addPart w s) :
    0 < p.1 ∧ p.2 = s := by
  match w with
  | none => simp [addPart] at hp
  | some wv =>
    by_cases h : 0 < wv
    · simp [addPart, h] at hp
      rw [hp]
      exact ⟨h, rfl⟩
    · simp [addPart, h] at hp

theorem parts_sums (parts : List (ℝ × ℝ))
    (h : ∀ p ∈ parts, 0 ≤ p.1 ∧ 0 ≤ p.2 ∧ p.2 ≤ 1) :
    0 ≤ (parts.map fun p => p.1 * p.2).sum ∧
    (parts.map fun p => p.1 * p.2).sum ≤ (parts.map Prod.fst).sum ∧
    0 ≤ (parts.map Prod.fst).sum := by
  induction parts with
  | nil => simp
  | cons p ps ih =>
    obtain ⟨h1, h2, h3⟩ := h p (List.mem_cons_self _ _)
    obtain ⟨i1, i2, i3⟩ := ih fun q hq => h q (List.mem_cons_of_mem _ hq)
    simp only [List.map_cons, List.sum_cons]
    refine ⟨by positivity, ?_, by positivity⟩
    have : p.1 * p.2 ≤ p.1 := mul_le_of_le_one_right h1 h3
    linarith

theorem overallSimilarity_mem (a b : Record) (w : Weights)
    (hca : CountsNonneg a.counts) (hcb : CountsNonneg b.counts) :
    0 ≤ overallSimilarity a b w ∧ overallSimilarity a b w ≤ 1 := by
  unfold overallSimilarity
  dsimp only
  set parts :=
    addPart w.date (simDate a.date b.date) ++
    addPart w.location (simLocation a.location b.location) ++
    addPart w.counts (simCounts a.counts b.counts) ++
    addPart w.ransom (simRansom a.ransom b.ransom) with hparts
  have hall : ∀ p ∈ parts, 0 ≤ p.1 ∧ 0 ≤ p.2 ∧ p.2 ≤ 1 := by
    intro p hp
    rw [hparts] at hp
    simp only [List.mem_append] at hp
    rcases hp with ((h | h) | h) | h
    · obtain ⟨hw, hs⟩ := mem_addPart h
      obtain ⟨b1, b2⟩ := simDate_mem a.date b.date 7 (by norm_num)
      exact ⟨le_of_lt hw, by rw [hs]; exact b1, by rw [hs]; exact b2⟩
    · obtain ⟨hw, hs⟩ := mem_addPart h
      obtain ⟨b1, b2⟩ := simLocation_mem a.location b.location
      exact ⟨le_of_lt hw, by rw [hs]; exact b1, by rw [hs]; exact b2⟩
    · obtain ⟨hw, hs⟩ := mem_addPart h
      obtain ⟨b1, b2⟩ := simCounts_mem a.counts b.counts hca hcb
      exact ⟨le_of_lt hw, by rw [hs]; exact b1, by rw [hs]; exact b2⟩
    · obtain ⟨hw, hs⟩ := mem_addPart h
      obtain ⟨b1, b2⟩ := simRansom_mem a.ransom b.ransom
      exact ⟨le_of_lt hw, by rw [hs]; exact b1, by rw [hs]; exact b2⟩
  obtain ⟨s1, s2, s3⟩ := parts_sums parts hall
  by_cases hW : (parts.map Prod.fst).sum = 0
  · rw [if_pos hW]
    norm_num
  · rw [if_neg hW]
    have hWpos : 0 < (parts.map Prod.fst).sum := lt_of_le_of_ne s3 (Ne.symm hW)
    exact ⟨div_nonneg s1 s3, (div_le_one hWpos).mpr s2⟩

theorem simLocation_self (s : Option String) : simLocation s s = 1 := by
  unfold simLocation
  dsimp only
  have hj : jaccard (tokenizeLocation s).toFinset (tokenizeLocation s).toFinset = 1 := by
    unfold jaccard
    dsimp only
    by_cases h : (tokenizeLocation s).toFinset.card = 0
    · simp [h]
    · rw [if_neg (by tauto)]
      rw [Finset.inter_self]
      rw [if_neg (by omega)]
      have he : (tokenizeLocation s).toFinset.card + (tokenizeLocation s).toFinset.card -
          (tokenizeLocation s).toFinset.card = (tokenizeLocation s).toFinset.card := by omega
      rw [he, div_self (by exact_mod_cast h)]
  rw [hj]
  cases lastSeg s
  · simp
  · simp
    norm_num

theorem safeNum_nonfin (v : JSNum) (h : ¬ v.isFin) : safeNum (some v) = none := by
  cases v <;> simp [JSNum.isFin, safeNum] at h ⊢

theorem simLocation_one_sided (b : Option String) (hb : tokenizeLocation b ≠ []) :
    simLocation none b = 0 := by
  unfold simLocation
  dsimp only
  have hcard : (tokenizeLocation b).toFinset.card ≠ 0 := by
    simp only [ne_eq, Finset.card_eq_zero, List.toFinset_eq_empty_iff]
    exact hb
  have hj : jaccard (tokenizeLocation none).toFinset (tokenizeLocation b).toFinset = 0 := by
    unfold jaccard
    dsimp only
    rw [show tokenizeLocation none = [] from rfl]
    rw [if_neg (fun h => hcard h.2)]
    simp
  rw [hj]
  simp [lastSeg]

-- ==== DSU root theory ====

theorem pget_set (p : List Nat) (i v y : Nat) :
    pget (p.set i v) y = if y = i ∧ i < p.length then v else pget p y := by
  unfold pget
  by_cases h : y = i ∧ i < p.length
  · obtain ⟨rfl, hlt⟩ := h
    rw [if_pos ⟨rfl, hlt⟩]
    rw [List.getD_eq_getElem?_getD, List.getElem?_set_self (by simpa using hlt)]
    simp
  · rw [if_neg h]
    rcases Decidable.em (y = i) with rfl | hne
    · have hge : p.length ≤ y := by
        rcases Nat.lt_or_ge y p.length with h1 | h1
        · exact absurd ⟨rfl, h1⟩ h
        · exact h1
      rw [List.getD_eq_getElem?_getD, List.getD_eq_getElem?_getD]
      rw [List.getElem?_eq_none (by simpa using hge), List.getElem?_eq_none (by simpa using hge)]
    · rw [List.getD_eq_getElem?_getD, List.getD_eq_getElem?_getD,
        List.getElem?_set_ne (fun hh => hne hh.symm)]

theorem pget_oob (p : List Nat) (x : Nat) (h : p.length ≤ x) : pget p x = x := by
  unfold pget
  rw [List.getD_eq_getElem?_getD, List.getElem?_eq_none (by simpa using h)]
  rfl

theorem reaches_rootAux (p : List Nat) : ∀ (fuel x : Nat), Reaches p x (rootAux p fuel x) := by
  intro fuel
  induction fuel with
  | zero => intro x; exact Relation.ReflTransGen.refl
  | succ f ih =>
    intro x
    unfold rootAux
    dsimp only
    by_cases h : pget p x = x
    · rw [if_pos h]; exact Relation.ReflTransGen.refl
    · rw [if_neg h]
      exact Relation.ReflTransGen.head ⟨h, rfl⟩ (ih (pget p x))

theorem reaches_of_fix {p : List Nat} {x r : Nat} (hfix : IsFix p x) (h : Reaches p x r) :
    r = x := by
  rcases h.cases_head with heq | ⟨c, hs, _⟩
  · exact heq.symm
  · exact absurd hfix hs.1

theorem fix_unique {p : List Nat} {r2 : Nat} (hf2 : IsFix p r2) :
    ∀ {x r1 : Nat}, Reaches p x r1 → IsFix p r1 → Reaches p x r2 → r1 = r2 := by
  intro x r1 h1
  induction h1 using Relation.ReflTransGen.head_induction_on with
  | refl =>
    intro hf1 h2
    exact (reaches_of_fix hf1 h2).symm
  | head s rest ih =>
    intro hf1 h2
    rcases h2.cases_head with heq | ⟨c2, s2, h2'⟩
    · exact absurd (heq ▸ hf2) s.1
    · have hc : c2 = _ := s2.2
      rw [hc, ← s.2] at h2'
      exact ih hf1 h2'

theorem rootAux_cases (p : List Nat) : ∀ (fuel x : Nat),
    IsFix p (rootAux p fuel x) ∨
    (rootAux p fuel x = (pget p)^[fuel] x ∧
     ∀ k < fuel, ¬ IsFix p ((pget p)^[k] x)) := by
  intro fuel
  induction fuel with
  | zero =>
    intro x
    right
    exact ⟨rfl, by omega⟩
  | succ f ih =>
    intro x
    unfold rootAux
    dsimp only
    by_cases h : pget p x = x
    · rw [if_pos h]; exact Or.inl h
    · rw [if_neg h]
      rcases ih (pget p x) with hfix | ⟨heq, hall⟩
      · exact Or.inl hfix
      · right
        refine ⟨by rw [heq, Function.iterate_succ_apply], ?_⟩
        intro k hk
        match k with
        | 0 => simpa [IsFix] using h
        | k + 1 =>
          rw [Function.iterate_succ_apply]
          exact hall k (by omega)

theorem iter_lt (p : List Nat) (hrange : ∀ x, x < p.length → pget p x < p.length)
    {x : Nat} (hx : x < p.length) : ∀ k, (pget p)^[k] x < p.length := by
  intro k
  induction k with
  | zero => simpa
  | succ k ih =>
    rw [Function.iterate_succ_apply']
    exact hrange _ ih

theorem iter_decr (p : List Nat) {h : Nat → Nat} (hrank : Ranked p h) {x m : Nat}
    (hall : ∀ k < m, ¬ IsFix p ((pget p)^[k] x)) :
    ∀ i j, i < j → j ≤ m → h ((pget p)^[j] x) < h ((pget p)^[i] x) := by
  intro i j
  induction j with
  | zero => omega
  | succ j ih =>
    intro hij hjm
    have hstep : h ((pget p)^[j + 1] x) < h ((pget p)^[j] x) := by
      rw [Function.iterate_succ_apply']
      exact hrank _ (hall j (by omega))
    rcases Nat.lt_or_ge i j with hlt | hge
    · exact lt_trans hstep (ih hlt (by omega))
    · have : i = j := by omega
      rw [this]
      exact hstep

theorem rootOf_isFix {p : List Nat} (hwf : WFP p) (x : Nat) : IsFix p (rootOf p x) := by
  obtain ⟨hrange, h, hrank⟩ := hwf
  rcases Nat.lt_or_ge x p.length with hx | hx
  · rcases rootAux_cases p p.length x with hfix | ⟨heq, hall⟩
    · exact hfix
    · exfalso
      have hinj : Function.Injective
          (fun i : Fin (p.length + 1) => (⟨(pget p)^[i] x, iter_lt p hrange hx i⟩ : Fin p.length)) := by
        intro i j hij
        simp only [Fin.mk.injEq] at hij
        by_contra hne
        have hne2 : (i : Nat) ≠ (j : Nat) := fun hh => hne (Fin.ext hh)
        rcases Nat.lt_or_ge (i : Nat) (j : Nat) with hlt | hge
        · have hd := iter_decr p hrank hall i j hlt (by omega)
          rw [hij] at hd
          omega
        · have hlt2 : (j : Nat) < (i : Nat) := by omega
          have hd := iter_decr p hrank hall j i hlt2 (by omega)
          rw [hij] at hd
          omega
      have := Fintype.card_le_of_injective _ hinj
      simp at this
  · have hfix : IsFix p x := pget_oob p x hx
    unfold rootOf
    rcases rootAux_cases p p.length x with hfix2 | ⟨heq, hall⟩
    · exact hfix2
    · rw [heq, Function.iterate_fixed hfix]
      exact hfix

theorem rootOf_spec {p : List Nat} (hwf : WFP p) (x : Nat) :
    Reaches p x (rootOf p x) ∧ IsFix p (rootOf p x) :=
  ⟨reaches_rootAux p p.length x, rootOf_isFix hwf x⟩

theorem rootOf_eq_of {p : List Nat} (hwf : WFP p) {x r : Nat}
    (hr : Reaches p x r) (hf : IsFix p r) : rootOf p x = r :=
  fix_unique hf (rootOf_spec hwf x).1 (rootOf_isFix hwf x) hr

theorem rootOf_of_fix {p : List Nat} (hwf : WFP p) {r : Nat} (hf : IsFix p r) :
    rootOf p r = r :=
  rootOf_eq_of hwf Relation.ReflTransGen.refl hf

theorem reaches_lt {p : List Nat} (hrange : ∀ x, x < p.length → pget p x < p.length)
    {x r : Nat} (hx : x < p.length) (h : Reaches p x r) : r < p.length := by
  induction h with
  | refl => exact hx
  | tail hab hbc ih =>
    rw [hbc.2]
    exact hrange _ ih

theorem rootOf_lt {p : List Nat} (hwf : WFP p) {x : Nat} (hx : x < p.length) :
    rootOf p x < p.length :=
  reaches_lt hwf.1 hx (rootOf_spec hwf x).1

theorem rootOf_step {p : List Nat} (hwf : WFP p) {x : Nat} (hne : pget p x ≠ x) :
    rootOf p (pget p x) = rootOf p x := by
  rcases (rootOf_spec hwf x).1.cases_head with heq | ⟨c, hs, hrest⟩
  · exact absurd (heq ▸ (rootOf_spec hwf x).2) hne
  · rw [hs.2] at hrest
    exact rootOf_eq_of hwf hrest (rootOf_spec hwf x).2

theorem reaches_h_le {p : List Nat} {h : Nat → Nat} (hrank : Ranked p h)
    {x r : Nat} (hr : Reaches p x r) : h r ≤ h x := by
  induction hr with
  | refl => exact le_rfl
  | tail hab hbc ih =>
    rw [hbc.2]
    exact le_trans (le_of_lt (hrank _ hbc.1)) ih

theorem rootAux_congr {p q : List Nat} (hpq : ∀ y, pget p y = pget q y) :
    ∀ (fuel y : Nat), rootAux p fuel y = rootAux q fuel y := by
  intro fuel
  induction fuel with
  | zero => intro y; rfl
  | succ f ih =>
    intro y
    unfold rootAux
    dsimp only
    rw [hpq y]
    by_cases h : pget q y = y
    · rw [if_pos h, if_pos h]
    · rw [if_neg h, if_neg h]
      exact ih (pget q y)

theorem wfp_congr {p q : List Nat} (hpq : ∀ y, pget p y = pget q y)
    (hlen : p.length = q.length) (hwf : WFP p) : WFP q := by
  obtain ⟨hrange, h, hrank⟩ := hwf
  refine ⟨?_, h, ?_⟩
  · intro y hy
    rw [← hpq y, ← hlen] at *
    exact hrange y hy
  · intro y hy
    rw [← hpq y] at *
    exact hrank y hy

theorem compress_spec {p : List Nat} (hwf : WFP p) (x : Nat) :
    WFP (p.set x (rootOf p x)) ∧ (p.set x (rootOf p x)).length = p.length ∧
    ∀ y, rootOf (p.set x (rootOf p x)) y = rootOf p y := by
  have hlen : (p.set x (rootOf p x)).length = p.length := List.length_set _ _ _
  by_cases hx : pget p x = x
  · have hr : rootOf p x = x := rootOf_of_fix hwf hx
    have hpq : ∀ y, pget (p.set x (rootOf p x)) y = pget p y := by
      intro y
      rw [pget_set]
      by_cases h : y = x ∧ x < p.length
      · rw [if_pos h, hr, h.1, hx]
      · rw [if_neg h]
    refine ⟨wfp_congr (fun y => (hpq y).symm) hlen.symm hwf, hlen, ?_⟩
    intro y
    rw [hr] at hpq ⊢
    show rootAux (p.set x x) (p.set x x).length y = rootAux p p.length y
    rw [List.length_set]
    exact rootAux_congr hpq p.length y
  · -- x is not a root; in particular x < p.length
    have hxlt : x < p.length := by
      by_contra hge
      exact hx (pget_oob p x (by omega))
    obtain ⟨hrange, h, hrank⟩ := hwf
    have hwf' : WFP p := ⟨hrange, h, hrank⟩
    set r := rootOf p x with hrdef
    have hrfix : IsFix p r := rootOf_isFix hwf' x
    have hrne : r ≠ x := fun hh => hx (hh ▸ hrfix)
    have hpg : ∀ y, pget (p.set x r) y = if y = x then r else pget p y := by
      intro y
      rw [pget_set]
      by_cases hy : y = x
      · rw [if_pos ⟨hy, hxlt⟩, if_pos hy]
      · rw [if_neg (fun hh => hy hh.1), if_neg hy]
    have hhr : h r < h x := by
      have h1 : Reaches p (pget p x) r := by
        have := (rootOf_spec hwf' (pget p x)).1
        rwa [rootOf_step hwf' hx] at this
      exact lt_of_le_of_lt (reaches_h_le hrank h1) (hrank x hx)
    have hwfp' : WFP (p.set x r) := by
      constructor
      · intro y hy
        rw [hlen] at hy
        rw [hpg y]
        by_cases hyx : y = x
        · rw [if_pos hyx, hlen]
          exact rootOf_lt hwf' hxlt
        · rw [if_neg hyx, hlen]
          exact hrange y hy
      · refine ⟨h, ?_⟩
        intro y hy
        rw [hpg y] at hy ⊢
        by_cases hyx : y = x
        · rw [if_pos hyx] at hy ⊢
          rw [hyx]
          exact hhr
        · rw [if_neg hyx] at hy ⊢
          exact hrank y hy
    have hfix' : ∀ z, IsFix p z → IsFix (p.set x r) z := by
      intro z hz
      unfold IsFix at hz ⊢
      rw [hpg z]
      by_cases hzx : z = x
      · exact absurd (hzx ▸ hz) hx
      · rw [if_neg hzx]; exact hz
    have htrans : ∀ (R : Nat), IsFix p R → ∀ a, Reaches p a R → Reaches (p.set x r) a R := by
      intro R hRfix a hy
      induction hy using Relation.ReflTransGen.head_induction_on with
      | refl => exact Relation.ReflTransGen.refl
      | head s rest ih =>
        rename_i a' c
        by_cases hax : a' = x
        · have hRr : R = r := by
            have h1 : rootOf p a' = R :=
              rootOf_eq_of hwf' (Relation.ReflTransGen.head s rest) hRfix
            rw [← h1, hrdef, hax]
          have hstep : Step (p.set x r) x r :=
            ⟨by rw [hpg x, if_pos rfl]; exact hrne, by rw [hpg x, if_pos rfl]⟩
          rw [hax, hRr]
          exact Relation.ReflTransGen.head hstep Relation.ReflTransGen.refl
        · exact Relation.ReflTransGen.head ⟨by rw [hpg a', if_neg hax]; exact s.1,
            by rw [hpg a', if_neg hax]; exact s.2⟩ ih
    refine ⟨hwfp', hlen, ?_⟩
    intro y
    exact rootOf_eq_of hwfp'
      (htrans (rootOf p y) (rootOf_isFix hwf' y) y (rootOf_spec hwf' y).1)
      (hfix' _ (rootOf_isFix hwf' y))

theorem findAux_spec {p : List Nat} (hwf : WFP p) :
    ∀ (fuel x : Nat), IsFix p (rootAux p fuel x) →
    (findAux p fuel x).1 = rootAux p fuel x ∧
    (findAux p fuel x).2.length = p.length ∧
    WFP (findAux p fuel x).2 ∧
    ∀ y, rootOf (findAux p fuel x).2 y = rootOf p y := by
  intro fuel
  induction fuel with
  | zero =>
    intro x _
    exact ⟨rfl, rfl, hwf, fun y => rfl⟩
  | succ f ih =>
    intro x hfix
    by_cases h : pget p x = x
    · have e1 : findAux p (f + 1) x = (x, p) := by
        unfold findAux; dsimp only; rw [if_pos h]
      have e2 : rootAux p (f + 1) x = x := by
        unfold rootAux; dsimp only; rw [if_pos h]
      rw [e1, e2]
      exact ⟨rfl, rfl, hwf, fun y => rfl⟩
    · have e1 : findAux p (f + 1) x =
          ((findAux p f (pget p x)).1,
           (findAux p f (pget p x)).2.set x (findAux p f (pget p x)).1) := by
        conv_lhs => unfold findAux
        dsimp only
        rw [if_neg h]
      have e2 : rootAux p (f + 1) x = rootAux p f (pget p x) := by
        conv_lhs => unfold rootAux
        dsimp only
        rw [if_neg h]
      rw [e2] at hfix
      obtain ⟨h1, h2, h3, h4⟩ := ih (pget p x) hfix
      have hRx : rootOf p x = rootAux p f (pget p x) := by
        apply rootOf_eq_of hwf _ hfix
        exact Relation.ReflTransGen.head ⟨h, rfl⟩ (reaches_rootAux p f (pget p x))
      have hR1 : rootOf (findAux p f (pget p x)).2 x = (findAux p f (pget p x)).1 := by
        rw [h4 x, hRx, h1]
      obtain ⟨c1, c2, c3⟩ := compress_spec h3 x
      rw [hR1] at c1 c2 c3
      rw [e1, e2]
      refine ⟨h1, ?_, c1, ?_⟩
      · dsimp only
        rw [c2, h2]
      · intro y
        dsimp only
        rw [c3 y, h4 y]

theorem find_spec (st : DSU) (hwf : WFP st.parent) (x : Nat) :
    (st.find x).1 = rootOf st.parent x ∧
    (st.find x).2.parent.length = st.parent.length ∧
    WFP (st.find x).2.parent ∧
    ∀ y, rootOf (st.find x).2.parent y = rootOf st.parent y := by
  have h := findAux_spec hwf st.parent.length x (rootOf_isFix hwf x)
  exact h

theorem link_spec {p : List Nat} (hwf : WFP p) {ra rb : Nat}
    (hfa : IsFix p ra) (hfb : IsFix p rb) (hne : ra ≠ rb)
    (hla : ra < p.length) (hlb : rb < p.length) :
    WFP (p.set rb ra) ∧ (p.set rb ra).length = p.length ∧
    ∀ y, rootOf (p.set rb ra) y = if rootOf p y = rb then ra else rootOf p y := by
  obtain ⟨hrange, h, hrank⟩ := hwf
  have hwf' : WFP p := ⟨hrange, h, hrank⟩
  have hlen : (p.set rb ra).length = p.length := List.length_set _ _ _
  have hpg : ∀ y, pget (p.set rb ra) y = if y = rb then ra else pget p y := by
    intro y
    rw [pget_set]
    by_cases hy : y = rb
    · rw [if_pos ⟨hy, hlb⟩, if_pos hy]
    · rw [if_neg (fun hh => hy hh.1), if_neg hy]
  -- the new measure: bump the old tree of rb above ra's value
  have hwfp' : WFP (p.set rb ra) := by
    constructor
    · intro y hy
      rw [hlen] at hy
      rw [hpg y, hlen]
      by_cases hyx : y = rb
      · rw [if_pos hyx]; exact hla
      · rw [if_neg hyx]; exact hrange y hy
    · refine ⟨fun y => h y + (if rootOf p y = rb then h ra + 1 else 0), ?_⟩
      intro y hy
      rw [hpg y] at hy ⊢
      by_cases hyx : y = rb
      · rw [if_pos hyx] at hy ⊢
        rw [hyx]
        dsimp only
        rw [rootOf_of_fix hwf' hfa, rootOf_of_fix hwf' hfb]
        rw [if_neg hne, if_pos rfl]
        omega
      · rw [if_neg hyx] at hy ⊢
        dsimp only
        have hroot : rootOf p (pget p y) = rootOf p y := rootOf_step hwf' hy
        rw [hroot]
        have := hrank y hy
        by_cases hc : rootOf p y = rb
        · rw [if_pos hc]; omega
        · rw [if_neg hc]; omega
  have hfix' : ∀ z, IsFix p z → z ≠ rb → IsFix (p.set rb ra) z := by
    intro z hz hzrb
    unfold IsFix at hz ⊢
    rw [hpg z, if_neg hzrb]
    exact hz
  have htrans : ∀ (R : Nat), IsFix p R → ∀ a, Reaches p a R → Reaches (p.set rb ra) a R := by
    intro R hRfix a hy
    induction hy using Relation.ReflTransGen.head_induction_on with
    | refl => exact Relation.ReflTransGen.refl
    | head s rest ih =>
      rename_i a' c
      have ha'rb : a' ≠ rb := by
        intro hh
        exact s.1 (hh ▸ hfb)
      exact Relation.ReflTransGen.head
        ⟨by rw [hpg a', if_neg ha'rb]; exact s.1,
         by rw [hpg a', if_neg ha'rb]; exact s.2⟩ ih
  refine ⟨hwfp', hlen, ?_⟩
  intro y
  by_cases hc : rootOf p y = rb
  · rw [if_pos hc]
    have hstep : Step (p.set rb ra) rb ra :=
      ⟨by rw [hpg rb, if_pos rfl]; exact hne,
       by rw [hpg rb, if_pos rfl]⟩
    have hreach : Reaches (p.set rb ra) y ra := by
      have h1 : Reaches (p.set rb ra) y rb := by
        have := htrans (rootOf p y) (rootOf_isFix hwf' y) y (rootOf_spec hwf' y).1
        rwa [hc] at this
      exact Relation.ReflTransGen.tail h1 hstep
    exact rootOf_eq_of hwfp' hreach (hfix' ra hfa hne)
  · rw [if_neg hc]
    exact rootOf_eq_of hwfp'
      (htrans (rootOf p y) (rootOf_isFix hwf' y) y (rootOf_spec hwf' y).1)
      (hfix' _ (rootOf_isFix hwf' y) hc)

theorem union_spec (st : DSU) (hwf : WFP st.parent) (a b : Nat)
    (ha : a < st.parent.length) (hb : b < st.parent.length) :
    WFP (st.union a b).parent ∧
    (st.union a b).parent.length = st.parent.length ∧
    ∀ x y, rootOf (st.union a b).parent x = rootOf (st.union a b).parent y ↔
      (rootOf st.parent x = rootOf st.parent y ∨
       (rootOf st.parent x = rootOf st.parent a ∧ rootOf st.parent y = rootOf st.parent b) ∨
       (rootOf st.parent x = rootOf st.parent b ∧ rootOf st.parent y = rootOf st.parent a)) := by
  obtain ⟨f1, f2, f3, f4⟩ := find_spec st hwf a
  obtain ⟨g1, g2, g3, g4⟩ := find_spec (st.find a).2 f3 b
  have hroots2 : ∀ y, rootOf ((st.find a).2.find b).2.parent y = rootOf st.parent y :=
    fun y => (g4 y).trans (f4 y)
  have hlen2 : ((st.find a).2.find b).2.parent.length = st.parent.length := g2.trans f2
  have hrb : ((st.find a).2.find b).1 = rootOf st.parent b := by rw [g1, f4]
  unfold DSU.union
  dsimp only
  rw [f1, hrb]
  by_cases heq : rootOf st.parent a = rootOf st.parent b
  · rw [if_pos heq]
    refine ⟨g3, hlen2, ?_⟩
    intro x y
    rw [hroots2 x, hroots2 y]
    constructor
    · exact fun hh => Or.inl hh
    · rintro (hh | ⟨h1, h2⟩ | ⟨h1, h2⟩)
      · exact hh
      · rw [h1, h2, heq]
      · rw [h1, h2, heq]
  · rw [if_neg heq]
    have hfixa : IsFix ((st.find a).2.find b).2.parent (rootOf st.parent a) := by
      have := rootOf_isFix g3 a
      rwa [hroots2 a] at this
    have hfixb : IsFix ((st.find a).2.find b).2.parent (rootOf st.parent b) := by
      have := rootOf_isFix g3 b
      rwa [hroots2 b] at this
    have hlta : rootOf st.parent a < ((st.find a).2.find b).2.parent.length := by
      rw [hlen2]; exact rootOf_lt hwf ha
    have hltb : rootOf st.parent b < ((st.find a).2.find b).2.parent.length := by
      rw [hlen2]; exact rootOf_lt hwf hb
    by_cases hsz : ((st.find a).2.find b).2.size.getD (rootOf st.parent a) 0 <
        ((st.find a).2.find b).2.size.getD (rootOf st.parent b) 0
    · rw [if_pos hsz, if_pos hsz]
      obtain ⟨l1, l2, l3⟩ := link_spec g3 hfixb hfixa (fun hh => heq hh.symm) hltb hlta
      refine ⟨l1, by rw [l2, hlen2], ?_⟩
      intro x y
      rw [l3 x, l3 y, hroots2 x, hroots2 y]
      split_ifs <;> omega
    · rw [if_neg hsz, if_neg hsz]
      obtain ⟨l1, l2, l3⟩ := link_spec g3 hfixa hfixb heq hlta hltb
      refine ⟨l1, by rw [l2, hlen2], ?_⟩
      intro x y
      rw [l3 x, l3 y, hroots2 x, hroots2 y]
      split_ifs <;> omega

theorem eqvGen_le {α : Type} {A B : α → α → Prop}
    (h : ∀ u v, A u v → Relation.EqvGen B u v) :
    ∀ x y, Relation.EqvGen A x y → Relation.EqvGen B x y := by
  intro x y hxy
  induction hxy with
  | rel u v huv => exact h u v huv
  | refl u => exact Relation.EqvGen.refl u
  | symm u v _ ih => exact ih.symm
  | trans u v w _ _ ih1 ih2 => exact ih1.trans _ _ _ ih2

theorem eqvGen_iff_of_equivalence {α : Type} {E : α → α → Prop} (h : Equivalence E)
    {x y : α} : Relation.EqvGen E x y ↔ E x y := by
  constructor
  · intro hxy
    induction hxy with
    | rel u v huv => exact huv
    | refl u => exact h.refl u
    | symm u v _ ih => exact h.symm ih
    | trans u v w _ _ ih1 ih2 => exact h.trans ih1 ih2
  · exact Relation.EqvGen.rel x y

theorem eqvGen_congr {α : Type} {A B : α → α → Prop}
    (h : ∀ u v, A u v ↔ B u v) {x y : α} :
    Relation.EqvGen A x y ↔ Relation.EqvGen B x y :=
  ⟨eqvGen_le (fun u v huv => Relation.EqvGen.rel u v ((h u v).mp huv)) x y,
   eqvGen_le (fun u v huv => Relation.EqvGen.rel u v ((h u v).mpr huv)) x y⟩

theorem scan_fold (entries : List Record) (w : Weights) (t : ℝ) :
    ∀ (L : List (Nat × Nat)) (st : DSU) (es : List Edge),
    WFP st.parent →
    (∀ ij ∈ L, ij.1 < st.parent.length ∧ ij.2 < st.parent.length) →
    WFP ((L.foldl (scanStep entries w t) (st, es)).1).parent ∧
    ((L.foldl (scanStep entries w t) (st, es)).1).parent.length = st.parent.length ∧
    (∀ x y, rootOf ((L.foldl (scanStep entries w t) (st, es)).1).parent x =
            rootOf ((L.foldl (scanStep entries w t) (st, es)).1).parent y ↔
      Relation.EqvGen (fun u v => rootOf st.parent u = rootOf st.parent v ∨
        ((u, v) ∈ L ∧ qualifies entries w t u v)) x y) ∧
    (∀ e ∈ (L.foldl (scanStep entries w t) (st, es)).2,
      e ∈ es ∨ ∃ ij, ij ∈ L ∧ qualifies entries w t ij.1 ij.2 ∧
        e.a = (entryAt entries ij.1).id ∧ e.b = (entryAt entries ij.2).id) := by
  intro L
  induction L with
  | nil =>
    intro st es hwf _
    refine ⟨hwf, rfl, ?_, ?_⟩
    · intro x y
      rw [eqvGen_congr (B := fun u v => rootOf st.parent u = rootOf st.parent v)
        (fun u v => by simp)]
      exact (eqvGen_iff_of_equivalence
        (E := fun u v => rootOf st.parent u = rootOf st.parent v)
        ⟨fun u => rfl, fun h => h.symm, fun h1 h2 => h1.trans h2⟩).symm
    · intro e he
      exact Or.inl he
  | cons ij L' ih =>
    intro st es hwf hbound
    obtain ⟨hi, hj⟩ := hbound ij (List.mem_cons_self _ _)
    rw [List.foldl_cons]
    by_cases hq : qualifies entries w t ij.1 ij.2
    · have hstep : scanStep entries w t (st, es) ij =
          (st.union ij.1 ij.2,
           es ++ [⟨(entryAt entries ij.1).id, (entryAt entries ij.2).id,
             round3 (overallSimilarity (entryAt entries ij.1) (entryAt entries ij.2) w)⟩]) := by
        unfold scanStep
        rw [if_pos hq]
      rw [hstep]
      obtain ⟨u1, u2, u3⟩ := union_spec st hwf ij.1 ij.2 hi hj
      have hbound' : ∀ kl ∈ L', kl.1 < (st.union ij.1 ij.2).parent.length ∧
          kl.2 < (st.union ij.1 ij.2).parent.length := by
        intro kl hkl
        rw [u2]
        exact hbound kl (List.mem_cons_of_mem _ hkl)
      obtain ⟨r1, r2, r3, r4⟩ := ih (st.union ij.1 ij.2) (es ++ [_]) u1 hbound'
      refine ⟨r1, r2.trans u2, ?_, ?_⟩
      · intro x y
        rw [r3 x y]
        constructor
        · apply eqvGen_le
          intro u v huv
          rcases huv with hr | ⟨hm, hqual⟩
          · rcases (u3 u v).mp hr with hs | ⟨h1, h2⟩ | ⟨h1, h2⟩
            · exact Relation.EqvGen.rel _ _ (Or.inl hs)
            · exact ((Relation.EqvGen.rel u ij.1 (Or.inl h1)).trans _ _ _
                (Relation.EqvGen.rel ij.1 ij.2
                  (Or.inr ⟨List.mem_cons_self _ _, hq⟩))).trans _ _ _
                (Relation.EqvGen.rel ij.2 v (Or.inl h2.symm))
            · exact ((Relation.EqvGen.rel u ij.2 (Or.inl h1)).trans _ _ _
                ((Relation.EqvGen.rel ij.1 ij.2
                  (Or.inr ⟨List.mem_cons_self _ _, hq⟩)).symm _ _)).trans _ _ _
                (Relation.EqvGen.rel ij.1 v (Or.inl h2.symm))
          · exact Relation.EqvGen.rel _ _ (Or.inr ⟨List.mem_cons_of_mem _ hm, hqual⟩)
        · apply eqvGen_le
          intro u v huv
          rcases huv with hr | ⟨hm, hqual⟩
          · exact Relation.EqvGen.rel _ _ (Or.inl ((u3 u v).mpr (Or.inl hr)))
          · rcases List.mem_cons.mp hm with heq | hm'
            · have hu : u = ij.1 := congrArg Prod.fst heq
              have hv : v = ij.2 := congrArg Prod.snd heq
              apply Relation.EqvGen.rel
              refine Or.inl ((u3 u v).mpr (Or.inr (Or.inl ⟨?_, ?_⟩)))
              · rw [hu]
              · rw [hv]
            · exact Relation.EqvGen.rel _ _ (Or.inr ⟨hm', hqual⟩)
      · intro e he
        rcases r4 e he with hin | ⟨kl, hkl, h1, h2, h3⟩
        · rcases List.mem_append.mp hin with h | h
          · exact Or.inl h
          · refine Or.inr ⟨ij, List.mem_cons_self _ _, hq, ?_, ?_⟩
            · rw [List.mem_singleton] at h
              rw [h]
            · rw [List.mem_singleton] at h
              rw [h]
        · exact Or.inr ⟨kl, List.mem_cons_of_mem _ hkl, h1, h2, h3⟩
    · have hstep : scanStep entries w t (st, es) ij = (st, es) := by
        unfold scanStep
        rw [if_neg hq]
      rw [hstep]
      obtain ⟨r1, r2, r3, r4⟩ := ih st es hwf
        (fun kl hkl => hbound kl (List.mem_cons_of_mem _ hkl))
      refine ⟨r1, r2, ?_, ?_⟩
      · intro x y
        rw [r3 x y]
        apply eqvGen_congr
        intro u v
        constructor
        · rintro (hr | ⟨hm, hqual⟩)
          · exact Or.inl hr
          · exact Or.inr ⟨List.mem_cons_of_mem _ hm, hqual⟩
        · rintro (hr | ⟨hm, hqual⟩)
          · exact Or.inl hr
          · rcases List.mem_cons.mp hm with heq | hm'
            · exfalso
              apply hq
              have hu : u = ij.1 := congrArg Prod.fst heq
              have hv : v = ij.2 := congrArg Prod.snd heq
              rw [← hu, ← hv]
              exact hqual
            · exact Or.inr ⟨hm', hqual⟩
      · intro e he
        rcases r4 e he with h | ⟨kl, hkl, h1, h2, h3⟩
        · exact Or.inl h
        · exact Or.inr ⟨kl, List.mem_cons_of_mem _ hkl, h1, h2, h3⟩

theorem ig_flatten (gs : List (Nat × List Nat)) (r i : Nat) :
    ((insertGroup gs r i).map Prod.snd).flatten.Perm
      ((gs.map Prod.snd).flatten ++ [i]) := by
  induction gs with
  | nil => simp [insertGroup]
  | cons pr rest ih =>
    match pr with
    | (k, xs) =>
      unfold insertGroup
      by_cases h : k = r
      · rw [if_pos h]
        simp only [List.map_cons, List.flatten_cons]
        rw [List.append_assoc, List.append_assoc]
        exact List.Perm.append_left xs List.perm_append_comm
      · rw [if_neg h]
        simp only [List.map_cons, List.flatten_cons]
        rw [List.append_assoc]
        exact List.Perm.append_left xs ih

theorem ig_inv {K : Nat → Nat} {gs : List (Nat × List Nat)} {r i : Nat}
    (hinv : ∀ pr ∈ gs, pr.2 ≠ [] ∧ ∀ j ∈ pr.2, K j = pr.1) (hki : K i = r) :
    ∀ pr ∈ insertGroup gs r i, pr.2 ≠ [] ∧ ∀ j ∈ pr.2, K j = pr.1 := by
  induction gs with
  | nil =>
    intro pr hpr
    rw [show insertGroup [] r i = [(r, [i])] from rfl, List.mem_singleton] at hpr
    subst hpr
    refine ⟨by simp, ?_⟩
    intro j hj
    rw [List.mem_singleton] at hj
    rw [hj]
    exact hki
  | cons hd rest ih =>
    match hd with
    | (k, xs) =>
      unfold insertGroup
      by_cases h : k = r
      · rw [if_pos h]
        intro pr hpr
        rcases List.mem_cons.mp hpr with rfl | hm
        · obtain ⟨hne, hall⟩ := hinv (k, xs) (List.mem_cons_self _ _)
          refine ⟨by simp, ?_⟩
          intro j hj
          rcases List.mem_append.mp hj with hj | hj
          · exact hall j hj
          · rw [List.mem_singleton] at hj
            rw [hj, hki, h]
        · exact hinv pr (List.mem_cons_of_mem _ hm)
      · rw [if_neg h]
        intro pr hpr
        rcases List.mem_cons.mp hpr with rfl | hm
        · exact hinv (k, xs) (List.mem_cons_self _ _)
        · exact ih (fun q hq => hinv q (List.mem_cons_of_mem _ hq)) pr hm

theorem ig_keys (gs : List (Nat × List Nat)) (r i : Nat) :
    (insertGroup gs r i).map Prod.fst = gs.map Prod.fst ∨
    (insertGroup gs r i).map Prod.fst = gs.map Prod.fst ++ [r] ∧ r ∉ gs.map Prod.fst := by
  induction gs with
  | nil => right; simp [insertGroup]
  | cons hd rest ih =>
    match hd with
    | (k, xs) =>
      unfold insertGroup
      by_cases h : k = r
      · left; rw [if_pos h]; simp
      · rw [if_neg h]
        rcases ih with h1 | ⟨h1, h2⟩
        · left; simp [h1]
        · right
          constructor
          · simp [h1]
          · simp only [List.map_cons, List.mem_cons]
            rintro (hh | hh)
            · exact h hh.symm
            · exact h2 hh

theorem ig_nodup {gs : List (Nat × List Nat)} {r i : Nat}
    (h : (gs.map Prod.fst).Nodup) : ((insertGroup gs r i).map Prod.fst).Nodup := by
  rcases ig_keys gs r i with h1 | ⟨h1, h2⟩
  · rw [h1]; exact h
  · rw [h1]
    simp only [List.nodup_append, List.nodup_singleton]
    exact ⟨h, by simp, by simpa using fun hh => h2 hh⟩

theorem assoc_unique {gs : List (Nat × List Nat)} (h : (gs.map Prod.fst).Nodup)
    {pr1 pr2 : Nat × List Nat} (h1 : pr1 ∈ gs) (h2 : pr2 ∈ gs)
    (hk : pr1.1 = pr2.1) : pr1 = pr2 := by
  induction gs with
  | nil => cases h1
  | cons hd rest ih =>
    simp only [List.map_cons, List.nodup_cons] at h
    rcases List.mem_cons.mp h1 with rfl | hm1 <;> rcases List.mem_cons.mp h2 with rfl | hm2
    · rfl
    · exact absurd (hk ▸ List.mem_map_of_mem Prod.fst hm2) h.1
    · exact absurd (hk ▸ List.mem_map_of_mem Prod.fst hm1) (by rw [hk] at *; exact fun hh => h.1 hh)
    · exact ih h.2 hm1 hm2

theorem groups_fold (K : Nat → Nat) :
    ∀ (l : List Nat) (st : DSU) (gs : List (Nat × List Nat)),
    WFP st.parent →
    (∀ y, rootOf st.parent y = K y) →
    (∀ pr ∈ gs, pr.2 ≠ [] ∧ ∀ j ∈ pr.2, K j = pr.1) →
    (gs.map Prod.fst).Nodup →
    (∀ pr ∈ (l.foldl groupStep (st, gs)).2, pr.2 ≠ [] ∧ ∀ j ∈ pr.2, K j = pr.1) ∧
    ((l.foldl groupStep (st, gs)).2.map Prod.fst).Nodup ∧
    ((l.foldl groupStep (st, gs)).2.map Prod.snd).flatten.Perm
      ((gs.map Prod.snd).flatten ++ l) := by
  intro l
  induction l with
  | nil =>
    intro st gs hwf hk hinv hnd
    refine ⟨hinv, hnd, by simp⟩
  | cons i l' ih =>
    intro st gs hwf hk hinv hnd
    rw [List.foldl_cons]
    obtain ⟨f1, f2, f3, f4⟩ := find_spec st hwf i
    have hstep : groupStep (st, gs) i = ((st.find i).2, insertGroup gs (K i) i) := by
      unfold groupStep
      dsimp only
      rw [f1, hk i]
    rw [hstep]
    obtain ⟨r1, r2, r3⟩ := ih (st.find i).2 (insertGroup gs (K i) i) f3
      (fun y => (f4 y).trans (hk y)) (ig_inv hinv rfl) (ig_nodup hnd)
    refine ⟨r1, r2, ?_⟩
    apply r3.trans
    refine ((ig_flatten gs (K i) i).append_right l').trans ?_
    rw [List.append_assoc]
    exact List.Perm.refl _

theorem pget_init (n y : Nat) : pget (DSU.init n).parent y = y := by
  unfold DSU.init pget
  dsimp only
  rcases Nat.lt_or_ge y n with h | h
  · rw [List.getD_eq_getElem?_getD, List.getElem?_range h]
    rfl
  · rw [List.getD_eq_getElem?_getD, List.getElem?_eq_none (by simpa using h)]
    rfl

theorem rootAux_of_fix {p : List Nat} {x : Nat} (h : IsFix p x) :
    ∀ fuel, rootAux p fuel x = x := by
  intro fuel
  cases fuel with
  | zero => rfl
  | succ f =>
    unfold rootAux
    dsimp only
    exact if_pos h

theorem rootOf_init (n y : Nat) : rootOf (DSU.init n).parent y = y :=
  rootAux_of_fix (pget_init n y) _

theorem WFP_init (n : Nat) : WFP (DSU.init n).parent := by
  constructor
  · intro x hx
    rw [pget_init]
    simpa [DSU.init] using hx
  · exact ⟨fun _ => 0, fun x hx => absurd (pget_init n x) hx⟩

theorem mem_drop_range {n m j : Nat} : j ∈ (List.range n).drop m ↔ m ≤ j ∧ j < n := by
  constructor
  · intro h
    obtain ⟨k, hk, hkj⟩ := List.mem_iff_getElem.mp h
    rw [List.getElem_drop, List.getElem_range] at hkj
    rw [List.length_drop, List.length_range] at hk
    omega
  · intro hh
    rw [List.mem_iff_getElem]
    refine ⟨j - m, ?_, ?_⟩
    · rw [List.length_drop, List.length_range]
      omega
    · rw [List.getElem_drop, List.getElem_range]
      omega

theorem pairList_mem {n i j : Nat} : (i, j) ∈ pairList n ↔ i < j ∧ j < n := by
  unfold pairList
  rw [List.mem_flatMap]
  constructor
  · rintro ⟨a, ha, hm⟩
    rw [List.mem_map] at hm
    obtain ⟨b, hb, hab⟩ := hm
    have h1 : a = i := congrArg Prod.fst hab
    have h2 : b = j := congrArg Prod.snd hab
    subst h1
    subst h2
    have := mem_drop_range.mp hb
    omega
  · rintro ⟨hij, hjn⟩
    refine ⟨i, List.mem_range.mpr (by omega), ?_⟩
    rw [List.mem_map]
    exact ⟨j, mem_drop_range.mpr (by omega), rfl⟩

theorem scanPairs_spec (entries : List Record) (w : Weights) (t : ℝ) :
    WFP (scanPairs entries w t).1.parent ∧
    (scanPairs entries w t).1.parent.length = entries.length ∧
    (∀ x y, rootOf (scanPairs entries w t).1.parent x =
            rootOf (scanPairs entries w t).1.parent y ↔
      Relation.EqvGen (fun u v => u = v ∨
        ((u, v) ∈ pairList entries.length ∧ qualifies entries w t u v)) x y) ∧
    (∀ e ∈ (scanPairs entries w t).2,
      ∃ ij, ij ∈ pairList entries.length ∧ qualifies entries w t ij.1 ij.2 ∧
        e.a = (entryAt entries ij.1).id ∧ e.b = (entryAt entries ij.2).id) := by
  have hb : ∀ ij ∈ pairList entries.length,
      ij.1 < (DSU.init entries.length).parent.length ∧
      ij.2 < (DSU.init entries.length).parent.length := by
    intro ij hij
    have := pairList_mem.mp (show (ij.1, ij.2) ∈ pairList entries.length from hij)
    simp only [DSU.init, List.length_range]
    omega
  obtain ⟨r1, r2, r3, r4⟩ := scan_fold entries w t (pairList entries.length)
    (DSU.init entries.length) [] (WFP_init _) hb
  have hlen : (DSU.init entries.length).parent.length = entries.length := by
    simp [DSU.init]
  unfold scanPairs
  refine ⟨r1, r2.trans hlen, ?_, ?_⟩
  · intro x y
    rw [r3 x y]
    apply eqvGen_congr
    intro u v
    rw [rootOf_init, rootOf_init]
  · intro e he
    rcases r4 e he with h | h
    · cases h
    · exact h

theorem range_map_entryAt (entries : List Record) :
    (List.range entries.length).map (fun i => (entryAt entries i).id) =
      entries.map Record.id := by
  apply List.ext_getElem
  · simp
  · intro i h1 h2
    simp only [List.getElem_map, List.getElem_range]
    unfold entryAt
    rw [List.getD_eq_getElem]

theorem groups_spec (entries : List Record) (w : Weights) (t : ℝ) :
    (∀ pr ∈ (buildGroups (scanPairs entries w t).1 entries.length).2,
      pr.2 ≠ [] ∧ ∀ j ∈ pr.2, rootOf (scanPairs entries w t).1.parent j = pr.1) ∧
    ((buildGroups (scanPairs entries w t).1 entries.length).2.map Prod.fst).Nodup ∧
    ((buildGroups (scanPairs entries w t).1 entries.length).2.map Prod.snd).flatten.Perm
      (List.range entries.length) := by
  obtain ⟨s1, s2, s3, s4⟩ := scanPairs_spec entries w t
  obtain ⟨g1, g2, g3⟩ := groups_fold (rootOf (scanPairs entries w t).1.parent)
    (List.range entries.length) (scanPairs entries w t).1 [] s1 (fun y => rfl)
    (by intro pr hpr; cases hpr) (by simp)
  unfold buildGroups
  refine ⟨g1, g2, ?_⟩
  have := g3
  simpa using this

theorem buckets_mem_iff (entries : List Record) (w : Weights) (t : ℝ) {B : Bucket} :
    B ∈ (clusterEntries entries w t).buckets ↔
    ∃ kpr ∈ ((buildGroups (scanPairs entries w t).1 entries.length).2).enum,
      B = mkBucket entries (scanPairs entries w t).2 kpr.1 kpr.2.2 := by
  show B ∈ List.mergeSort _ _ ↔ _
  rw [(List.mergeSort_perm _ _).mem_iff, List.mem_map]
  constructor
  · rintro ⟨p, hp, hfp⟩
    exact ⟨p, hp, hfp.symm⟩
  · rintro ⟨p, hp, hfp⟩
    exact ⟨p, hp, hfp.symm⟩

theorem buckets_flatten_perm (entries : List Record) (w : Weights) (t : ℝ) :
    ((clusterEntries entries w t).buckets.map Bucket.entryIds).flatten.Perm
      (entries.map Record.id) := by
  have h1 : (clusterEntries entries w t).buckets.Perm
      (((buildGroups (scanPairs entries w t).1 entries.length).2).enum.map
        (fun p => mkBucket entries (scanPairs entries w t).2 p.1 p.2.2)) :=
    List.mergeSort_perm _ _
  have e2 : (((buildGroups (scanPairs entries w t).1 entries.length).2).enum.map
        (fun p => mkBucket entries (scanPairs entries w t).2 p.1 p.2.2)).map Bucket.entryIds
      = ((buildGroups (scanPairs entries w t).1 entries.length).2.map Prod.snd).map
          (List.map fun i => (entryAt entries i).id) := by
    rw [List.map_map]
    conv_rhs => rw [← List.enum_map_snd ((buildGroups (scanPairs entries w t).1 entries.length).2)]
    rw [List.map_map, List.map_map]
    rfl
  have h3 := (h1.map Bucket.entryIds).flatten
  rw [e2] at h3
  rw [← List.map_flatten] at h3
  apply h3.trans
  have h4 := ((groups_spec entries w t).2.2).map (fun i => (entryAt entries i).id)
  apply h4.trans
  rw [range_map_entryAt]

theorem countP_of_count_flatten_one {x : String} :
    ∀ (l : List (List String)),
    ((l.map (List.count x)).sum = 1) →
    l.countP (fun s => decide (x ∈ s)) = 1 := by
  intro l
  induction l with
  | nil => simp
  | cons hd tl ih =>
    intro hsum
    simp only [List.map_cons, List.sum_cons] at hsum
    rw [List.countP_cons]
    by_cases hx : x ∈ hd
    · have hhd : 1 ≤ List.count x hd := List.one_le_count_iff.mpr hx
      have htl : (tl.map (List.count x)).sum = 0 := by omega
      have : ∀ s ∈ tl, x ∉ s := by
        intro s hs hxs
        have h1 : 1 ≤ List.count x s := List.one_le_count_iff.mpr hxs
        have h2 : List.count x s ≤ (tl.map (List.count x)).sum := by
          have := List.le_sum_of_mem (List.mem_map_of_mem (List.count x) hs)
          exact this
        omega
      have hcz : tl.countP (fun s => decide (x ∈ s)) = 0 := by
        rw [List.countP_eq_zero]
        intro s hs
        simpa using this s hs
      simp [hcz, hx]
    · have : List.count x hd = 0 := List.count_eq_zero.mpr hx
      rw [this] at hsum
      simp only [Nat.zero_add] at hsum
      simp [hx, ih hsum]

/-- Claim C1: for every record list with pairwise-distinct ids, every weight
map and every threshold, the buckets of `clusterEntries` partition the input
ids: the concatenation of all `entryIds` is a permutation of the input ids,
bucket entry-sets are pairwise disjoint, an id belongs to some bucket iff it
is an input id, and each input id lies in exactly one bucket. -/
theorem C1_partition (entries : List Record) (w : Weights) (t : ℝ)
    (hids : (entries.map Record.id).Nodup) :
    (((clusterEntries entries w t).buckets.map Bucket.entryIds).flatten).Perm
      (entries.map Record.id) ∧
    List.Pairwise (fun b1 b2 => ∀ x, x ∈ b1.entryIds → x ∉ b2.entryIds)
      (clusterEntries entries w t).buckets ∧
    (∀ x, x ∈ entries.map Record.id ↔
      ∃ b ∈ (clusterEntries entries w t).buckets, x ∈ b.entryIds) ∧
    (∀ x ∈ entries.map Record.id,
      ((clusterEntries entries w t).buckets.countP fun b => decide (x ∈ b.entryIds)) = 1) := by
  have hperm := buckets_flatten_perm entries w t
  have hnd : ((clusterEntries entries w t).buckets.map Bucket.entryIds).flatten.Nodup :=
    hperm.nodup_iff.mpr hids
  obtain ⟨hall, hdisj⟩ := List.nodup_flatten.mp hnd
  refine ⟨hperm, ?_, ?_, ?_⟩
  · rw [List.pairwise_map] at hdisj
    exact hdisj.imp fun {b1 b2} h => fun x hx1 hx2 => h hx1 hx2
  · intro x
    rw [← hperm.mem_iff, List.mem_flatten]
    constructor
    · rintro ⟨l, hl, hx⟩
      rw [List.mem_map] at hl
      obtain ⟨b, hb, rfl⟩ := hl
      exact ⟨b, hb, hx⟩
    · rintro ⟨b, hb, hx⟩
      exact ⟨b.entryIds, List.mem_map_of_mem _ hb, hx⟩
  · intro x hx
    have hc : List.count x ((clusterEntries entries w t).buckets.map Bucket.entryIds).flatten = 1 := by
      rw [hperm.count_eq]
      exact List.count_eq_one_of_mem hids hx
    rw [List.count_flatten] at hc
    have := countP_of_count_flatten_one ((clusterEntries entries w t).buckets.map Bucket.entryIds)
      (by rw [List.map_map] at hc ⊢; exact hc)
    rw [List.countP_map] at this
    exact this

theorem buckets_disjoint (entries : List Record) (w : Weights) (t : ℝ)
    (hids : (entries.map Record.id).Nodup) :
    List.Pairwise (fun b1 b2 => ∀ x, x ∈ b1.entryIds → x ∉ b2.entryIds)
      (clusterEntries entries w t).buckets := by
  have hperm := buckets_flatten_perm entries w t
  have hnd : ((clusterEntries entries w t).buckets.map Bucket.entryIds).flatten.Nodup :=
    hperm.nodup_iff.mpr hids
  obtain ⟨hall, hdisj⟩ := List.nodup_flatten.mp hnd
  rw [List.pairwise_map] at hdisj
  exact hdisj.imp fun {b1 b2} h => fun x hx1 hx2 => h hx1 hx2

theorem bucket_edge_endpoints (entries : List Record) (edges : List Edge)
    (idx : Nat) (arr : List Nat) {e : Edge}
    (he : e ∈ (mkBucket entries edges idx arr).similarityEdges) :
    e ∈ edges ∧ e.a ∈ (mkBucket entries edges idx arr).entryIds ∧
      e.b ∈ (mkBucket entries edges idx arr).entryIds := by
  unfold mkBucket at he ⊢
  dsimp only at he ⊢
  rw [List.mem_filter] at he
  obtain ⟨h1, h2⟩ := he
  rw [Bool.and_eq_true] at h2
  exact ⟨h1, by simpa using h2.1, by simpa using h2.2⟩

/-- Claim C10: for distinct input ids, every emitted pairwise edge has both
endpoint ids inside one and the same bucket, and the edge appears in exactly
that bucket's `similarityEdges` list — no edge crosses two buckets. -/
theorem C10_edges (entries : List Record) (w : Weights) (t : ℝ)
    (hids : (entries.map Record.id).Nodup) :
    ∀ e ∈ (clusterEntries entries w t).pairwise,
    ∃ k, ∃ hk : k < (clusterEntries entries w t).buckets.length,
      (e.a ∈ ((clusterEntries entries w t).buckets.get ⟨k, hk⟩).entryIds ∧
       e.b ∈ ((clusterEntries entries w t).buckets.get ⟨k, hk⟩).entryIds ∧
       e ∈ ((clusterEntries entries w t).buckets.get ⟨k, hk⟩).similarityEdges) ∧
      ∀ k2 (hk2 : k2 < (clusterEntries entries w t).buckets.length),
        e ∈ ((clusterEntries entries w t).buckets.get ⟨k2, hk2⟩).similarityEdges → k2 = k := by
  intro e he
  obtain ⟨s1, s2, s3, s4⟩ := scanPairs_spec entries w t
  obtain ⟨ij, hmem, hqual, hea, heb⟩ := s4 e he
  obtain ⟨hij, hjn⟩ := pairList_mem.mp (show (ij.1, ij.2) ∈ pairList entries.length from hmem)
  have hroot : rootOf (scanPairs entries w t).1.parent ij.1 =
      rootOf (scanPairs entries w t).1.parent ij.2 :=
    (s3 ij.1 ij.2).mpr (Relation.EqvGen.rel _ _ (Or.inr ⟨hmem, hqual⟩))
  obtain ⟨g1, g2, g3⟩ := groups_spec entries w t
  have hmemi : ij.1 ∈ ((buildGroups (scanPairs entries w t).1 entries.length).2.map Prod.snd).flatten :=
    g3.mem_iff.mpr (List.mem_range.mpr (by omega))
  have hmemj : ij.2 ∈ ((buildGroups (scanPairs entries w t).1 entries.length).2.map Prod.snd).flatten :=
    g3.mem_iff.mpr (List.mem_range.mpr hjn)
  rw [List.mem_flatten] at hmemi hmemj
  obtain ⟨li, hli, hi⟩ := hmemi
  obtain ⟨lj, hlj, hj⟩ := hmemj
  rw [List.mem_map] at hli hlj
  obtain ⟨pri, hpri, rfl⟩ := hli
  obtain ⟨prj, hprj, rfl⟩ := hlj
  have hkeq : pri.1 = prj.1 := by
    rw [← (g1 pri hpri).2 ij.1 hi, ← (g1 prj hprj).2 ij.2 hj]
    exact hroot
  have hpr : pri = prj := assoc_unique g2 hpri hprj hkeq
  -- the bucket built from pri's group
  obtain ⟨kk, hkk⟩ := List.mem_iff_getElem.mp hpri
  obtain ⟨hkklt, hkkeq⟩ := hkk
  have henum : (kk, pri) ∈ ((buildGroups (scanPairs entries w t).1 entries.length).2).enum := by
    rw [List.mem_enum_iff_getElem?]
    rw [List.getElem?_eq_getElem hkklt, hkkeq]
  have hbmem : mkBucket entries (scanPairs entries w t).2 kk pri.2 ∈
      (clusterEntries entries w t).buckets := by
    rw [buckets_mem_iff]
    exact ⟨(kk, pri), henum, rfl⟩
  obtain ⟨k, hk, hkeq2⟩ := List.mem_iff_getElem.mp hbmem
  have hmea : e.a ∈ (mkBucket entries (scanPairs entries w t).2 kk pri.2).entryIds := by
    unfold mkBucket
    dsimp only
    rw [hea]
    exact List.mem_map_of_mem _ hi
  have hmeb : e.b ∈ (mkBucket entries (scanPairs entries w t).2 kk pri.2).entryIds := by
    unfold mkBucket
    dsimp only
    rw [heb]
    exact List.mem_map_of_mem _ (hpr ▸ hj)
  have hmee : e ∈ (mkBucket entries (scanPairs entries w t).2 kk pri.2).similarityEdges := by
    unfold mkBucket at hmea hmeb ⊢
    dsimp only at hmea hmeb ⊢
    rw [List.mem_filter]
    refine ⟨he, ?_⟩
    rw [Bool.and_eq_true]
    exact ⟨by simpa using hmea, by simpa using hmeb⟩
  refine ⟨k, hk, ⟨?_, ?_, ?_⟩, ?_⟩
  · rw [List.get_eq_getElem, hkeq2]
    exact hmea
  · rw [List.get_eq_getElem, hkeq2]
    exact hmeb
  · rw [List.get_eq_getElem, hkeq2]
    exact hmee
  · intro k2 hk2 hek2
    by_contra hne
    have hdisj := buckets_disjoint entries w t hids
    rw [List.pairwise_iff_getElem] at hdisj
    have hbk2 : (clusterEntries entries w t).buckets[k2] ∈
        (clusterEntries entries w t).buckets := List.getElem_mem hk2
    obtain ⟨kpr2, _, hbk2eq⟩ := (buckets_mem_iff entries w t).mp hbk2
    have hend2 : e.a ∈ (clusterEntries entries w t).buckets[k2].entryIds := by
      rw [hbk2eq]
      rw [List.get_eq_getElem, hbk2eq] at hek2
      exact (bucket_edge_endpoints entries _ _ _ hek2).2.1
    have hend1 : e.a ∈ (clusterEntries entries w t).buckets[k].entryIds := by
      rw [hkeq2]
      exact hmea
    rcases Nat.lt_or_ge k2 k with hlt | hge
    · exact (hdisj k2 k hk2 hk hlt) e.a hend2 hend1
    · have hlt2 : k < k2 := by omega
      exact (hdisj k k2 hk hk2 hlt2) e.a hend1 hend2

/-- Claim C6: for a fixed input and weight map and thresholds `t1 < t2`,
the partition produced at the higher threshold refines the one produced at
the lower threshold: every bucket at `t2` is contained in a single bucket
at `t1`. -/
theorem C6_refinement (entries : List Record) (w : Weights) (t1 t2 : ℝ) (h12 : t1 < t2) :
    ∀ b2 ∈ (clusterEntries entries w t2).buckets,
    ∃ b1 ∈ (clusterEntries entries w t1).buckets, ∀ x ∈ b2.entryIds, x ∈ b1.entryIds := by
  intro b2 hb2
  obtain ⟨s1a, s2a, s3a, s4a⟩ := scanPairs_spec entries w t2
  obtain ⟨s1b, s2b, s3b, s4b⟩ := scanPairs_spec entries w t1
  obtain ⟨g1a, g2a, g3a⟩ := groups_spec entries w t2
  obtain ⟨g1b, g2b, g3b⟩ := groups_spec entries w t1
  obtain ⟨kpr, hkpr, hb2eq⟩ := (buckets_mem_iff entries w t2).mp hb2
  have hpr2 : kpr.2 ∈ (buildGroups (scanPairs entries w t2).1 entries.length).2 := by
    have := List.enum_map_snd ((buildGroups (scanPairs entries w t2).1 entries.length).2)
    rw [← this]
    exact List.mem_map_of_mem _ hkpr
  obtain ⟨hne2, hkey2⟩ := g1a kpr.2 hpr2
  -- the head element of the bucket's index group
  obtain ⟨i0, hi0⟩ := List.exists_mem_of_ne_nil _ hne2
  have hlt : ∀ i ∈ kpr.2.2, i < entries.length := by
    intro i hi
    have : i ∈ ((buildGroups (scanPairs entries w t2).1 entries.length).2.map Prod.snd).flatten :=
      List.mem_flatten.mpr ⟨kpr.2.2, List.mem_map_of_mem _ hpr2, hi⟩
    exact List.mem_range.mp (g3a.mem_iff.mp this)
  -- i0's group at threshold t1
  have hgrp1 : ∀ i, i < entries.length →
      ∃ pr ∈ (buildGroups (scanPairs entries w t1).1 entries.length).2, i ∈ pr.2 := by
    intro i hi
    have : i ∈ ((buildGroups (scanPairs entries w t1).1 entries.length).2.map Prod.snd).flatten :=
      g3b.mem_iff.mpr (List.mem_range.mpr hi)
    rw [List.mem_flatten] at this
    obtain ⟨l, hl, hmem⟩ := this
    rw [List.mem_map] at hl
    obtain ⟨pr, hpr, rfl⟩ := hl
    exact ⟨pr, hpr, hmem⟩
  obtain ⟨pr1, hpr1, hi0pr1⟩ := hgrp1 i0 (hlt i0 hi0)
  -- the bucket built from pr1 at t1
  obtain ⟨kk1, hkk1lt, hkk1eq⟩ := List.mem_iff_getElem.mp hpr1
  have henum1 : (kk1, pr1) ∈ ((buildGroups (scanPairs entries w t1).1 entries.length).2).enum := by
    rw [List.mem_enum_iff_getElem?, List.getElem?_eq_getElem hkk1lt, hkk1eq]
  have hb1mem : mkBucket entries (scanPairs entries w t1).2 kk1 pr1.2 ∈
      (clusterEntries entries w t1).buckets := by
    rw [buckets_mem_iff]
    exact ⟨(kk1, pr1), henum1, rfl⟩
  refine ⟨mkBucket entries (scanPairs entries w t1).2 kk1 pr1.2, hb1mem, ?_⟩
  intro x hx
  rw [hb2eq] at hx
  unfold mkBucket at hx ⊢
  dsimp only at hx ⊢
  rw [List.mem_map] at hx
  obtain ⟨i, hi, rfl⟩ := hx
  -- same root as i0 at t2, hence at t1
  have hroot2 : rootOf (scanPairs entries w t2).1.parent i =
      rootOf (scanPairs entries w t2).1.parent i0 := by
    rw [hkey2 i hi, hkey2 i0 hi0]
  have heqv2 := (s3a i i0).mp hroot2
  have heqv1 : Relation.EqvGen (fun u v => u = v ∨
      ((u, v) ∈ pairList entries.length ∧ qualifies entries w t1 u v)) i i0 := by
    refine eqvGen_le ?_ i i0 heqv2
    intro u v huv
    apply Relation.EqvGen.rel
    rcases huv with h | ⟨hm, hq⟩
    · exact Or.inl h
    · refine Or.inr ⟨hm, ?_⟩
      unfold qualifies at hq ⊢
      linarith
  have hroot1 : rootOf (scanPairs entries w t1).1.parent i =
      rootOf (scanPairs entries w t1).1.parent i0 := (s3b i i0).mpr heqv1
  -- i lies in pr1's group at t1
  obtain ⟨pr1', hpr1', hipr1'⟩ := hgrp1 i (hlt i hi)
  have hkeyeq : pr1'.1 = pr1.1 := by
    rw [← (g1b pr1' hpr1').2 i hipr1', ← (g1b pr1 hpr1).2 i0 hi0pr1]
    exact hroot1
  have : pr1' = pr1 := assoc_unique g2b hpr1' hpr1 hkeyeq
  exact List.mem_map_of_mem _ (this ▸ hipr1')

/-- Claim C7: two non-empty event-type lists sharing no normalized value
score 0 on the event-type aspect (`simEventEqual` of the 7-aspect module),
independently of every other aspect and of the weights. -/
theorem C7_event (a b : List String) (ha : a ≠ []) (_hb : b ≠ [])
    (hdisj : ∀ x ∈ a, ∀ y ∈ b, normVal x ≠ normVal y) :
    simEventEqual a b = 0 := by
  unfold simEventEqual
  rw [if_neg]
  intro heq
  unfold arrEqual at heq
  dsimp only at heq
  rw [beq_iff_eq] at heq
  obtain ⟨x, hx⟩ := List.exists_mem_of_ne_nil a ha
  have hxa : x ∈ a.mergeSort (fun x y => !decide (y < x)) :=
    (List.mergeSort_perm a _).mem_iff.mpr hx
  rw [heq] at hxa
  have hxb : x ∈ b := (List.mergeSort_perm b _).mem_iff.mp hxa
  exact hdisj x hx x hxb rfl

theorem filterMap_length_isSome {α β : Type} (f : α → Option β) :
    ∀ (l : List α), (l.filterMap f).length = l.length → ∀ x ∈ l, (f x).isSome = true := by
  intro l
  induction l with
  | nil => intro _ x hx; cases hx
  | cons hd tl ih =>
    intro hlen x hx
    have hle : (tl.filterMap f).length ≤ tl.length := List.length_filterMap_le f tl
    cases hf : f hd with
    | none =>
      rw [List.filterMap_cons_none hf] at hlen
      simp only [List.length_cons] at hlen
      omega
    | some v =>
      rw [List.filterMap_cons_some hf] at hlen
      simp only [List.length_cons] at hlen
      rcases List.mem_cons.mp hx with rfl | hm
      · rw [hf]; rfl
      · exact ih (by omega) x hm

theorem strLower_empty_iff (s : String) : strLower s = "" ↔ s = "" := by
  constructor
  · intro h
    have hdat : s.data.map Char.toLower = "".data := congrArg String.data h
    have hlen : s.data.length = 0 := by simpa using congrArg List.length hdat
    exact String.ext (by simpa using List.length_eq_zero.mp hlen)
  · rintro rfl
    decide

theorem normCondList_nil_iff (l : List String) : normCondList l = [] ↔ l = [] := by
  unfold normCondList
  constructor
  · intro h
    have hlen : (l.map normVal).length = 0 := by
      rw [← (List.mergeSort_perm (l.map normVal) _).length_eq, h]
      rfl
    simpa using List.length_eq_zero.mp (by simpa using hlen)
  · rintro rfl
    rw [List.map_nil, List.mergeSort_nil]

theorem normSetKey_ne_empty {l : List String} (h : normSetKey l ≠ "") : l ≠ [] := by
  intro hl
  apply h
  rw [hl]
  unfold normSetKey
  rw [List.map_nil, List.mergeSort_nil]
  rfl

/-- Claim C9: the Bucket Explainer marks an aspect "shared" only if every
member of the bucket has the corresponding attribute present: each consensus
flag of the route layer forces the attribute to be present on all members. -/
theorem C9_explainer (entries : List NEntry) :
    (dateShared entries = true → ∀ e ∈ entries, e.date.isSome = true) ∧
    (locShared entries = true → ∀ e ∈ entries, locTruthy e.location = true) ∧
    (subShared entries NCounts.male 1 = true → ∀ e ∈ entries, e.counts.male.isSome = true) ∧
    (subShared entries NCounts.female 1 = true → ∀ e ∈ entries, e.counts.female.isSome = true) ∧
    (subShared entries NCounts.kids 1 = true → ∀ e ∈ entries, e.counts.kids.isSome = true) ∧
    (subShared entries NCounts.total 3 = true → ∀ e ∈ entries, e.counts.total.isSome = true) ∧
    (ransomShared entries = true → ∀ e ∈ entries, e.ransom.isSome = true) ∧
    (eventShared entries = true → ∀ e ∈ entries, e.eventTypes ≠ []) ∧
    (transportShared entries = true → ∀ e ∈ entries, strTrim (e.transport.getD "") ≠ "") ∧
    (conditionsShared entries = true → ∀ e ∈ entries, e.conditions ≠ []) := by
  have hsub : ∀ (get : NCounts → Option ℚ) (tol : ℚ),
      subShared entries get tol = true → ∀ e ∈ entries, (get e.counts).isSome = true := by
    intro get tol h e he
    unfold subShared at h
    rw [Bool.and_eq_true] at h
    have hlen : (entries.filterMap fun e => get e.counts).length = entries.length := by
      simpa using h.1
    exact filterMap_length_isSome _ entries hlen e he
  refine ⟨?_, ?_, hsub NCounts.male 1, hsub NCounts.female 1, hsub NCounts.kids 1,
    hsub NCounts.total 3, ?_, ?_, ?_, ?_⟩
  · intro h e he
    unfold dateShared at h
    rw [Bool.and_eq_true, Bool.and_eq_true] at h
    exact List.all_eq_true.mp h.1.2 e he
  · intro h e he
    unfold locShared at h
    rw [Bool.and_eq_true, Bool.and_eq_true] at h
    have heq := List.all_eq_true.mp h.1.2 e he
    rw [beq_iff_eq] at heq
    rw [heq]
    exact h.2
  · intro h e he
    unfold ransomShared at h
    rw [Bool.and_eq_true] at h
    have hlen : (entries.filterMap NEntry.ransom).length = entries.length := by
      simpa using h.1
    exact filterMap_length_isSome _ entries hlen e he
  · intro h e he
    unfold eventShared at h
    rw [Bool.and_eq_true] at h
    obtain ⟨_, h2⟩ := h
    rw [Bool.and_eq_true] at h2
    have heq := List.all_eq_true.mp h2.2 e he
    rw [beq_iff_eq] at heq
    apply normSetKey_ne_empty
    rw [heq]
    simpa using h2.1
  · intro h e he
    unfold transportShared at h
    rw [Bool.and_eq_true] at h
    obtain ⟨_, h2⟩ := h
    rw [Bool.and_eq_true] at h2
    have heq := List.all_eq_true.mp h2.2 e he
    rw [beq_iff_eq] at heq
    intro hev
    have hbase : strTrim ((entries.headD dNEntry).transport.getD "") = "" := by
      have : strLower (strTrim ((entries.headD dNEntry).transport.getD "")) = "" := by
        rw [← heq, hev]
        decide
      exact (strLower_empty_iff _).mp this
    rw [hbase] at h2
    simp at h2
  · intro h e he
    unfold conditionsShared at h
    rw [Bool.and_eq_true, Bool.and_eq_true] at h
    have heq := List.all_eq_true.mp h.1.2 e he
    rw [beq_iff_eq] at heq
    intro hc
    have h0 : normCondList (entries.headD dNEntry).conditions = [] := by
      rw [← heq, hc]
      rw [show normCondList [] = [] from by
        unfold normCondList
        rw [List.map_nil, List.mergeSort_nil]]
    have : (entries.headD dNEntry).conditions = [] := (normCondList_nil_iff _).mp h0
    rw [this] at h
    simp at h

/-! ## Claims -/


theorem simLocation_both_tokenless (a b : Option String)
    (ha : tokenizeLocation a = []) (hb : tokenizeLocation b = []) :
    simLocation a b = 1 := by
  unfold simLocation
  dsimp only
  have hj : jaccard (tokenizeLocation a).toFinset (tokenizeLocation b).toFinset = 1 := by
    unfold jaccard
    rw [ha, hb]
    simp
  rw [hj]
  cases lastSeg a <;> cases lastSeg b <;> simp only []
  rename_i x y
  by_cases h : x = y
  · rw [if_pos h]
    rw [min_eq_left (by norm_num)]
  · rw [if_neg h]

/-- Claim C2 counterexample: with both locations absent the location aspect
scores 1 (the Jaccard of two empty token sets), not 0 as the claim states. -/
theorem simLocation_missing_scores_one_cx :
    simLocation none none = 1 ∧ simLocation none none ≠ 0 := by
  have h := simLocation_both_tokenless none none rfl rfl
  exact ⟨h, by rw [h]; norm_num⟩

/-- Claim C2 (amended): the date and monetary aspects return 0 whenever an
input is missing, and the headcount aspect returns 0 when both are missing;
the location aspect returns 0 for a one-sided missing value only when the
present side has at least one token, and returns 1 whenever both sides
tokenize to the empty token set (in particular when both are absent). -/
theorem missing_input_aspect_scores :
    (∀ (a b : Option ℝ) (τ : ℝ), a = none ∨ b = none → simDate a b τ = 0) ∧
    (∀ a b : Option JSNum, a = none ∨ b = none → simRansom a b = 0) ∧
    simCounts none none = 0 ∧
    (∀ b : Option String, tokenizeLocation b ≠ [] →
      simLocation none b = 0 ∧ simLocation b none = 0) ∧
    (∀ a b : Option String, tokenizeLocation a = [] → tokenizeLocation b = [] →
      simLocation a b = 1) := by
  refine ⟨?_, ?_, rfl, ?_, simLocation_both_tokenless⟩
  · rintro a b τ (rfl | rfl)
    · rfl
    · cases a <;> rfl
  · rintro a b (rfl | rfl)
    · rfl
    · cases a with
      | none => rfl
      | some v => cases v <;> rfl
  · intro b hb
    exact ⟨simLocation_one_sided b hb, by rw [simLocation_comm]; exact simLocation_one_sided b hb⟩

theorem missing_input_aspect_scores_witness :
    ((none : Option ℝ) = none ∨ (some (5:ℝ)) = none) ∧
    (tokenizeLocation (some "Aleppo") ≠ []) ∧
    simDate none (some 5) 7 = 0 ∧ simLocation none (some "Aleppo") = 0 := by
  refine ⟨Or.inl rfl, by decide, ?_, ?_⟩
  · exact (missing_input_aspect_scores.1 none (some 5) 7 (Or.inl rfl))
  · exact (missing_input_aspect_scores.2.2.2.1 (some "Aleppo") (by decide)).1

/-- Claim C3 counterexample: two records that both lack a date, with
identical locations and weights `{date:1, location:1}`.  The spec-modelled
drop-the-aspect average is 1, but `overallSimilarity` is 1/2: the missing
date contributes score 0 with full weight instead of being dropped. -/
theorem overallSimilarity_no_drop_cx :
    overallSimilarity ⟨"a1", none, some "Aleppo, Syria", none, none⟩
      ⟨"b1", none, some "Aleppo, Syria", none, none⟩
      ⟨some 1, some 1, none, none⟩ = 1 / 2 ∧
    overallSimilaritySpecDropped ⟨"a1", none, some "Aleppo, Syria", none, none⟩
      ⟨"b1", none, some "Aleppo, Syria", none, none⟩
      ⟨some 1, some 1, none, none⟩ = 1 ∧
    (1 / 2 : ℝ) ≠ 1 := by
  refine ⟨?_, ?_, by norm_num⟩
  · unfold overallSimilarity
    dsimp only
    rw [show simDate none none 7 = 0 from rfl]
    rw [simLocation_self]
    simp [addPart]
    norm_num
  · unfold overallSimilaritySpecDropped
    dsimp only
    rw [simLocation_self]
    simp [addPart]

/-- Claim C3 (amended): an aspect whose inputs are both absent is not
dropped from the weighted average; its score (0 for the date aspect) is
included with its full weight.  With all four weights present and positive
and both dates missing, `overallSimilarity` equals the average over the
other three aspects whose denominator still includes the date weight. -/
theorem overallSimilarity_missing_date_included (a b : Record) (w : Weights)
    (wd wl wc wr : ℝ)
    (hda : a.date = none) (hdb : b.date = none)
    (hwd : w.date = some wd) (hwl : w.location = some wl)
    (hwc : w.counts = some wc) (hwr : w.ransom = some wr)
    (h0d : 0 < wd) (h0l : 0 < wl) (h0c : 0 < wc) (h0r : 0 < wr) :
    overallSimilarity a b w =
      (wl * simLocation a.location b.location + wc * simCounts a.counts b.counts +
       wr * simRansom a.ransom b.ransom) / (wd + wl + wc + wr) := by
  unfold overallSimilarity
  dsimp only
  rw [hda, hdb, hwd, hwl, hwc, hwr]
  rw [show simDate none none 7 = 0 from rfl]
  unfold addPart
  dsimp only
  rw [if_pos h0d, if_pos h0l, if_pos h0c, if_pos h0r]
  simp only [List.cons_append, List.nil_append, List.map_cons, List.map_nil,
    List.sum_cons, List.sum_nil]
  rw [if_neg (by positivity)]
  ring_nf

theorem overallSimilarity_missing_date_included_witness :
    overallSimilarity ⟨"a1", none, none, none, none⟩ ⟨"b1", none, none, none, none⟩
      ⟨some 1, some 1, some 1, some 1⟩ =
      (1 * simLocation none none + 1 * simCounts none none + 1 * simRansom none none) /
        (1 + 1 + 1 + 1) :=
  overallSimilarity_missing_date_included _ _ _ 1 1 1 1 rfl rfl rfl rfl rfl rfl
    (by norm_num) (by norm_num) (by norm_num) (by norm_num)

/-- Claim C4: `overallSimilarity` is symmetric in its two records, and so is
every aspect similarity function. -/
theorem overallSimilarity_symmetric :
    (∀ (a b : Record) (w : Weights), overallSimilarity a b w = overallSimilarity b a w) ∧
    (∀ (a b : Option ℝ) (τ : ℝ), simDate a b τ = simDate b a τ) ∧
    (∀ a b : Option String, simLocation a b = simLocation b a) ∧
    (∀ ca cb : Option Counts, simCounts ca cb = simCounts cb ca) ∧
    (∀ a b : Option JSNum, simRansom a b = simRansom b a) :=
  ⟨overallSimilarity_comm, simDate_comm, simLocation_comm, simCounts_comm, simRansom_comm⟩

/-- Claim C5: for records satisfying the data-model constraints and a
non-negative weight map with a positive weight, `overallSimilarity` lies in
`[0, 1]`; moreover the location score with its +0.15 bonus is capped at 1
and the cosine of non-negative vectors is non-negative. -/
theorem overallSimilarity_unit_interval :
    (∀ (a b : Record) (w : Weights),
      CountsNonneg a.counts → CountsNonneg b.counts →
      NonnegNum a.ransom → NonnegNum b.ransom →
      WeightsNonneg w → HasPositiveWeight w →
      0 ≤ overallSimilarity a b w ∧ overallSimilarity a b w ≤ 1) ∧
    (∀ a b : Option String, simLocation a b ≤ 1) ∧
    (∀ v1 v2 : List ℝ, (∀ x ∈ v1, 0 ≤ x) → (∀ x ∈ v2, 0 ≤ x) → 0 ≤ cosine v1 v2) :=
  ⟨fun a b w hca hcb _ _ _ _ => overallSimilarity_mem a b w hca hcb,
   fun a b => (simLocation_mem a b).2,
   cosine_nonneg⟩

theorem overallSimilarity_unit_interval_witness :
    (CountsNonneg (some ⟨some (.fin 2), some (.fin 1), none, none⟩) ∧
     WeightsNonneg ⟨some 1, none, some 1, none⟩ ∧
     HasPositiveWeight ⟨some 1, none, some 1, none⟩) ∧
    (0 ≤ overallSimilarity
        ⟨"a1", some 0, none, some ⟨some (.fin 2), some (.fin 1), none, none⟩, none⟩
        ⟨"b1", some 0, none, none, none⟩ ⟨some 1, none, some 1, none⟩ ∧
     overallSimilarity
        ⟨"a1", some 0, none, some ⟨some (.fin 2), some (.fin 1), none, none⟩, none⟩
        ⟨"b1", some 0, none, none, none⟩ ⟨some 1, none, some 1, none⟩ ≤ 1) := by
  have hc : CountsNonneg (some ⟨some (.fin 2), some (.fin 1), none, none⟩) := by
    refine ⟨?_, ?_, ?_, ?_⟩ <;>
      intro x hx <;> simp only [Option.some.injEq, JSNum.fin.injEq] at hx <;>
        first
          | (rw [← hx]; norm_num)
          | cases hx
  have hw : WeightsNonneg ⟨some 1, none, some 1, none⟩ := by
    refine ⟨?_, ?_, ?_, ?_⟩ <;> intro x hx <;>
      simp only [Option.some.injEq] at hx <;>
        first
          | (rw [← hx]; norm_num)
          | cases hx
  have hp : HasPositiveWeight ⟨some 1, none, some 1, none⟩ :=
    Or.inl ⟨1, rfl, by norm_num⟩
  refine ⟨⟨hc, hw, hp⟩, ?_⟩
  exact overallSimilarity_unit_interval.1 _ _ _ hc (by trivial)
    (fun x hx => by cases hx) (fun x hx => by cases hx) hw hp

/-- Claim C8 counterexample: a negative finite monetary amount is kept, not
treated as absent — two equal negative amounts score 1 while a missing
amount scores 0. -/
theorem simRansom_negative_kept_cx :
    simRansom (some (.fin (-5))) (some (.fin (-5))) = 1 ∧
    simRansom none (some (.fin (-5))) = 0 ∧ (1 : ℝ) ≠ 0 := by
  refine ⟨?_, rfl, by norm_num⟩
  simp [simRansom, safeNum]

/-- Claim C8 (amended): `NaN`, infinite, and unparsable monetary amounts are
treated exactly as absent by the monetary aspect, and a non-finite headcount
component behaves exactly as an absent component; but negative finite
amounts are kept, not treated as absent. -/
theorem nonfinite_numeric_as_absent :
    (∀ v : JSNum, ¬ v.isFin → ∀ b : Option JSNum,
      simRansom (some v) b = simRansom none b ∧
      simRansom b (some v) = simRansom b none) ∧
    (∀ v : JSNum, ¬ v.isFin → ∀ (f k t : Option JSNum) (cb : Option Counts),
      simCounts (some ⟨some v, f, k, t⟩) cb = simCounts (some ⟨none, f, k, t⟩) cb ∧
      simCounts (some ⟨f, some v, k, t⟩) cb = simCounts (some ⟨f, none, k, t⟩) cb ∧
      simCounts (some ⟨f, k, some v, t⟩) cb = simCounts (some ⟨f, k, none, t⟩) cb ∧
      simCounts (some ⟨f, k, t, some v⟩) cb = simCounts (some ⟨f, k, t, none⟩) cb) := by
  constructor
  · intro v hv b
    constructor
    · unfold simRansom
      rw [safeNum_nonfin v hv]
      rfl
    · unfold simRansom
      rw [safeNum_nonfin v hv]
      cases safeNum b <;> rfl
  · intro v hv f k t cb
    refine ⟨?_, ?_, ?_, ?_⟩ <;>
      (unfold simCounts; cases cb <;>
        simp only [Option.some_bind, safeNum_nonfin v hv,
          show safeNum none = none from rfl])

theorem nonfinite_numeric_as_absent_witness :
    (¬ JSNum.nan.isFin) ∧
    simRansom (some .nan) (some (.fin 3)) = simRansom none (some (.fin 3)) := by
  refine ⟨by decide, ?_⟩
  exact ((nonfinite_numeric_as_absent.1 .nan (by decide) (some (.fin 3))).1)

theorem C1_partition_witness :
    (([⟨"A", none, none, none, none⟩, ⟨"B", none, none, none, none⟩] : List Record).map
      Record.id).Nodup ∧
    ((((clusterEntries [⟨"A", none, none, none, none⟩, ⟨"B", none, none, none, none⟩]
        ⟨none, none, none, none⟩ 1).buckets.map Bucket.entryIds).flatten).Perm
      (([⟨"A", none, none, none, none⟩, ⟨"B", none, none, none, none⟩] : List Record).map
        Record.id)) := by
  have hnd : (([⟨"A", none, none, none, none⟩, ⟨"B", none, none, none, none⟩] :
      List Record).map Record.id).Nodup := by
    simp
  exact ⟨hnd, (C1_partition _ ⟨none, none, none, none⟩ 1 hnd).1⟩

theorem C7_event_witness :
    (["alpha"] ≠ ([] : List String)) ∧ (["beta"] ≠ ([] : List String)) ∧
    simEventEqual ["alpha"] ["beta"] = 0 := by
  refine ⟨by decide, by decide, ?_⟩
  exact C7_event ["alpha"] ["beta"] (by decide) (by decide)
    (by
      intro x hx y hy
      rw [List.mem_singleton] at hx hy
      rw [hx, hy]
      decide)

theorem C9_explainer_witness :
    dateShared [⟨some 0, some "x", some 100, ⟨some 1, none, none, some 3⟩, [], none, []⟩,
      ⟨some 0, some "x", some 100, ⟨some 2, none, none, some 4⟩, [], none, []⟩] = true ∧
    ∀ e ∈ ([⟨some 0, some "x", some 100, ⟨some 1, none, none, some 3⟩, [], none, []⟩,
      ⟨some 0, some "x", some 100, ⟨some 2, none, none, some 4⟩, [], none, []⟩] :
        List NEntry), e.date.isSome = true := by
  have hds : dateShared [⟨some 0, some "x", some 100, ⟨some 1, none, none, some 3⟩, [], none, []⟩,
      ⟨some 0, some "x", some 100, ⟨some 2, none, none, some 4⟩, [], none, []⟩] = true := by
    unfold dateShared
    simp only [List.isEmpty, List.all_cons, List.all_nil, List.filterMap_cons, List.filterMap_nil,
      List.foldl_cons, List.foldl_nil, List.headD_cons, Option.isSome_some, Bool.and_true,
      Bool.true_and, Bool.not_false, decide_eq_true_eq]
    norm_num
  exact ⟨hds, (C9_explainer _).1 hds⟩

theorem C6_refinement_witness :
    ((1 : ℝ) / 2 < 1) ∧
    ((⟨1, ["A"], 1, []⟩ : Bucket) ∈
      (clusterEntries [⟨"A", none, none, none, none⟩] ⟨none, none, none, none⟩ 1).buckets) ∧
    ∃ b1 ∈ (clusterEntries [⟨"A", none, none, none, none⟩] ⟨none, none, none, none⟩
        (1 / 2)).buckets,
      ∀ x ∈ (⟨1, ["A"], 1, []⟩ : Bucket).entryIds, x ∈ b1.entryIds := by
  have hb : (clusterEntries [⟨"A", none, none, none, none⟩] ⟨none, none, none, none⟩ 1).buckets
      = [⟨1, ["A"], 1, []⟩] := by
    have h1 : (clusterEntries [⟨"A", none, none, none, none⟩] ⟨none, none, none, none⟩ 1).buckets
        = List.mergeSort [⟨1, ["A"], 1, []⟩] (fun A B => decide (B.size ≤ A.size)) := rfl
    rw [h1, List.mergeSort_singleton]
  have hmem : (⟨1, ["A"], 1, []⟩ : Bucket) ∈
      (clusterEntries [⟨"A", none, none, none, none⟩] ⟨none, none, none, none⟩ 1).buckets := by
    rw [hb]
    exact List.mem_singleton.mpr rfl
  exact ⟨by norm_num, hmem,
    C6_refinement [⟨"A", none, none, none, none⟩] ⟨none, none, none, none⟩ (1/2) 1
      (by norm_num) _ hmem⟩

theorem C10_edges_witness :
    (([⟨"A", none, some "x", none, none⟩, ⟨"B", none, some "x", none, none⟩] :
        List Record).map Record.id).Nodup ∧
    ∃ k, ∃ hk : k < (clusterEntries
        [⟨"A", none, some "x", none, none⟩, ⟨"B", none, some "x", none, none⟩]
        ⟨none, some 1, none, none⟩ (1 / 2)).buckets.length,
      ((⟨"A", "B", round3 (overallSimilarity
          ⟨"A", none, some "x", none, none⟩ ⟨"B", none, some "x", none, none⟩
          ⟨none, some 1, none, none⟩)⟩ : Edge).a ∈
        ((clusterEntries [⟨"A", none, some "x", none, none⟩, ⟨"B", none, some "x", none, none⟩]
          ⟨none, some 1, none, none⟩ (1 / 2)).buckets.get ⟨k, hk⟩).entryIds ∧
       (⟨"A", "B", round3 (overallSimilarity
          ⟨"A", none, some "x", none, none⟩ ⟨"B", none, some "x", none, none⟩
          ⟨none, some 1, none, none⟩)⟩ : Edge).b ∈
        ((clusterEntries [⟨"A", none, some "x", none, none⟩, ⟨"B", none, some "x", none, none⟩]
          ⟨none, some 1, none, none⟩ (1 / 2)).buckets.get ⟨k, hk⟩).entryIds ∧
       (⟨"A", "B", round3 (overallSimilarity
          ⟨"A", none, some "x", none, none⟩ ⟨"B", none, some "x", none, none⟩
          ⟨none, some 1, none, none⟩)⟩ : Edge) ∈
        ((clusterEntries [⟨"A", none, some "x", none, none⟩, ⟨"B", none, some "x", none, none⟩]
          ⟨none, some 1, none, none⟩ (1 / 2)).buckets.get ⟨k, hk⟩).similarityEdges) ∧
      ∀ k2 (hk2 : k2 < (clusterEntries
          [⟨"A", none, some "x", none, none⟩, ⟨"B", none, some "x", none, none⟩]
          ⟨none, some 1, none, none⟩ (1 / 2)).buckets.length),
        (⟨"A", "B", round3 (overallSimilarity
          ⟨"A", none, some "x", none, none⟩ ⟨"B", none, some "x", none, none⟩
          ⟨none, some 1, none, none⟩)⟩ : Edge) ∈
          ((clusterEntries [⟨"A", none, some "x", none, none⟩, ⟨"B", none, some "x", none, none⟩]
            ⟨none, some 1, none, none⟩ (1 / 2)).buckets.get ⟨k2, hk2⟩).similarityEdges →
        k2 = k := by
  have hids : (([⟨"A", none, some "x", none, none⟩, ⟨"B", none, some "x", none, none⟩] :
      List Record).map Record.id).Nodup := by simp
  have hov : overallSimilarity ⟨"A", none, some "x", none, none⟩
      ⟨"B", none, some "x", none, none⟩ ⟨none, some 1, none, none⟩ = 1 := by
    unfold overallSimilarity
    dsimp only
    rw [simLocation_self]
    simp [addPart]
  have hq : qualifies [⟨"A", none, some "x", none, none⟩, ⟨"B", none, some "x", none, none⟩]
      ⟨none, some 1, none, none⟩ (1 / 2) 0 1 := by
    unfold qualifies
    rw [show entryAt [⟨"A", none, some "x", none, none⟩, ⟨"B", none, some "x", none, none⟩] 0 =
      ⟨"A", none, some "x", none, none⟩ from rfl]
    rw [show entryAt [⟨"A", none, some "x", none, none⟩, ⟨"B", none, some "x", none, none⟩] 1 =
      ⟨"B", none, some "x", none, none⟩ from rfl]
    rw [hov]
    norm_num
  have h2 : (clusterEntries [⟨"A", none, some "x", none, none⟩, ⟨"B", none, some "x", none, none⟩]
      ⟨none, some 1, none, none⟩ (1 / 2)).pairwise =
      (scanStep [⟨"A", none, some "x", none, none⟩, ⟨"B", none, some "x", none, none⟩]
        ⟨none, some 1, none, none⟩ (1 / 2) (DSU.init 2, []) (0, 1)).2 := rfl
  have h3 : (scanStep [⟨"A", none, some "x", none, none⟩, ⟨"B", none, some "x", none, none⟩]
      ⟨none, some 1, none, none⟩ (1 / 2) (DSU.init 2, []) (0, 1)).2 =
      [⟨"A", "B", round3 (overallSimilarity ⟨"A", none, some "x", none, none⟩
        ⟨"B", none, some "x", none, none⟩ ⟨none, some 1, none, none⟩)⟩] := by
    unfold scanStep
    rw [if_pos hq]
    rfl
  have hmem : (⟨"A", "B", round3 (overallSimilarity ⟨"A", none, some "x", none, none⟩
      ⟨"B", none, some "x", none, none⟩ ⟨none, some 1, none, none⟩)⟩ : Edge) ∈
      (clusterEntries [⟨"A", none, some "x", none, none⟩, ⟨"B", none, some "x", none, none⟩]
        ⟨none, some 1, none, none⟩ (1 / 2)).pairwise := by
    rw [h2, h3]
    exact List.mem_singleton.mpr rfl
  exact ⟨hids, C10_edges _ _ _ hids _ hmem⟩
